import Mathlib

/-!
Verification development for the `aubepine` on-call roster generator.

The Rust sources are shallowly embedded:
* `src/availabilities.rs` — per-person availability state (`Availabilities`);
* `src/calendar.rs` — the duty roster (`Calendar`), plus a year-aware model
  of `Calendar::new` in the `YearModel` namespace;
* `src/lib.rs` — the candidate selector, premature-stop detector, the
  recursive solver `find_next`, and the orchestrator `make_calendar`.

Calendar days are embedded as `Int` day indices (the program only ever builds
days of a single calendar year, where day-of-year ordinals, `±1 day`
arithmetic and weekday stepping all coincide with plain integer arithmetic).
`HashMap`s are embedded as association lists or as functions; `Vec` as
`List`.  Rust's stable `sorted`/`sorted_by_key` are embedded as a stable
insertion sort, and `String` ordering as lexicographic ordering of the
character list.
-/

namespace Aubepine

/-! ## Generic machinery: string order, stable insertion sort, assoc lists -/

/-- Lexicographic strict order on character lists (byte order on ASCII,
matching Rust's `String` ordering). -/
def charListLt : List Char → List Char → Bool
  | [], [] => false
  | [], _ :: _ => true
  | _ :: _, [] => false
  | a :: as, b :: bs => if a < b then true else if b < a then false else charListLt as bs

/-- Strict lexicographic order on strings, as Rust's `String: Ord`. -/
def strLt (a b : String) : Bool := charListLt a.data b.data

/-- Insert `a` into `l`, descending past elements strictly below `a`.
Used to model Rust's stable sorts: an element is placed before all
later elements that compare equal to it. -/
def insertLt (lt : α → α → Bool) (a : α) : List α → List α
  | [] => [a]
  | b :: bs => if lt b a then b :: insertLt lt a bs else a :: b :: bs

/-- Stable insertion sort, the embedding of itertools' stable `sorted` /
`sorted_by_key`. -/
def isort (lt : α → α → Bool) : List α → List α
  | [] => []
  | x :: xs => insertLt lt x (isort lt xs)

/-- Minimum of a list of naturals (`keys().min()` on the scarcity groups). -/
def listMinNat : List Nat → Option Nat
  | [] => none
  | x :: xs =>
    some (match listMinNat xs with
          | none => x
          | some m => min x m)

/-! ## Events and weekdays -/

/-- The four duty events of `calendar.rs`. -/
inductive Event where
  | FirstDaily | FirstNightly | SecondDaily | SecondNightly
deriving DecidableEq, Repr, Fintype

/-- Days of the week, as in the `time` crate. -/
inductive Weekday where
  | monday | tuesday | wednesday | thursday | friday | saturday | sunday
deriving DecidableEq, Repr

/-- Weekday of a day index; consecutive day indices have consecutive
weekdays, as for `time::Date::weekday`. -/
def weekday (d : Int) : Weekday :=
  match (d % 7).toNat with
  | 0 => .monday
  | 1 => .tuesday
  | 2 => .wednesday
  | 3 => .thursday
  | 4 => .friday
  | 5 => .saturday
  | _ => .sunday

abbrev Name := String

/-! ## `availabilities.rs`: the per-person availability state.
The `days: HashMap<Date, Vec<Event>>` field is embedded as a function from
day index to `Option (List Event)` (`none` = day absent from the map). -/

abbrev Availabilities := Int → Option (List Event)

/-- `Availabilities::get`. -/
def Availabilities.get (s : Availabilities) (day : Int) : Option (List Event) := s day

/-- `Availabilities::pop_all`: clear the day's vector if the day is present. -/
def Availabilities.pop_all (s : Availabilities) (day : Int) : Availabilities :=
  fun d => if d = day then (s day).map (fun _ => ([] : List Event)) else s d

/-- Remove the first occurrence of `e`, if any (`position` + `remove` in
`Availabilities::pop_event`). -/
def popFirst : List Event → Event → List Event
  | [], _ => []
  | a :: as, e => if a = e then as else a :: popFirst as e

/-- `Availabilities::pop_event` (its effect on the state; the returned
popped value is not used by the callers we verify). -/
def Availabilities.pop_event (s : Availabilities) (day : Int) (e : Event) : Availabilities :=
  fun d => if d = day then (s day).map (fun l => popFirst l e) else s d

/-- `Availabilities::map_from_str`, applied to the already-split CSV line:
the duty level parsed from the leading token, then one token per day
starting at `fromD`.  An empty token inserts an empty vector for the day, a
non-empty token records the level event for the day. -/
def mapFromStr (fromD : Int) (level : Event) : List String → Availabilities
  | [] => fun _ => none
  | t :: ts =>
    let rest := mapFromStr (fromD + 1) level ts
    fun d => if d = fromD then (if t = "" then some [] else some [level]) else rest d

/-- `Availabilities::from_str`. -/
def Availabilities.from_str (fromD : Int) (level : Event) (tokens : List String) :
    Availabilities :=
  mapFromStr fromD level tokens

/-- `Availabilities::merge`: for every day of the new row, extend the
existing vector (or insert the new one). -/
def Availabilities.merge (s : Availabilities) (fromD : Int) (level : Event)
    (tokens : List String) : Availabilities :=
  let new_map := mapFromStr fromD level tokens
  fun d =>
    match new_map d with
    | none => s d
    | some b =>
      match s d with
      | some a => some (a ++ b)
      | none => some b

/-- The `is_second_on_the_weekend` condition of
`Availabilities::update_availabilities`. -/
def isSecondWeekend (event : Event) (day : Int) : Bool :=
  (event = Event.SecondDaily || event = Event.SecondNightly) &&
    (weekday day = Weekday.friday || weekday day = Weekday.saturday ||
      weekday day = Weekday.sunday)

/-- `Availabilities::update_availabilities`, line by line. -/
def update_availabilities (s0 : Availabilities) (day : Int) (event : Event) :
    Availabilities :=
  let next_day := day + 1
  let previous_day := day - 1
  let s1 := s0.pop_event day event
  let isw := isSecondWeekend event day
  let s2 :=
    if !isw then ((s1.pop_all day).pop_all previous_day).pop_all next_day
    else (s1.pop_event day Event.FirstDaily).pop_event day Event.FirstNightly
  let remains_next :=
    isw && (weekday day = Weekday.friday || weekday day = Weekday.saturday)
  let s3 :=
    if remains_next then
      (s2.pop_event next_day Event.FirstDaily).pop_event next_day Event.FirstNightly
    else s2.pop_all next_day
  let remains_prev :=
    isw && (weekday day = Weekday.saturday || weekday day = Weekday.sunday)
  let s4 :=
    if remains_prev then
      (s3.pop_event previous_day Event.FirstDaily).pop_event previous_day Event.FirstNightly
    else s3.pop_all previous_day
  s4

/-! ## `calendar.rs`: the roster.
`BTreeMap<Date, HashMap<Event, Name>>` is embedded as an association list
sorted by day, whose values are a record with one optional assignee per
event (the inner map only ever holds the four fixed keys). -/

/-- The per-day `HashMap<Event, Name>` of `calendar.rs`. -/
structure EventMap where
  firstDaily : Option Name := none
  firstNightly : Option Name := none
  secondDaily : Option Name := none
  secondNightly : Option Name := none
deriving DecidableEq, Repr

def EventMap.get (m : EventMap) : Event → Option Name
  | .FirstDaily => m.firstDaily
  | .FirstNightly => m.firstNightly
  | .SecondDaily => m.secondDaily
  | .SecondNightly => m.secondNightly

def EventMap.insert (m : EventMap) : Event → Name → EventMap
  | .FirstDaily, n => { m with firstDaily := some n }
  | .FirstNightly, n => { m with firstNightly := some n }
  | .SecondDaily, n => { m with secondDaily := some n }
  | .SecondNightly, n => { m with secondNightly := some n }

structure Calendar where
  fromDate : Int
  toDate : Int
  days : List (Int × EventMap)
deriving DecidableEq, Repr

/-- `Calendar::new`: one initially empty entry per day of `[from, to]`
(single-year day-index model; the year-aware construction is modelled
separately in `YearModel`). -/
def Calendar.new (f t : Int) : Calendar :=
  ⟨f, t, (List.range (t + 1 - f).toNat).map (fun i => (f + (i : Int), {}))⟩

/-- Ordered insertion/update for the `BTreeMap` entry in `Calendar::set_for`. -/
def insertAssign : List (Int × EventMap) → Int → Event → Name → List (Int × EventMap)
  | [], day, ev, n => [(day, EventMap.insert {} ev n)]
  | (d, m) :: rest, day, ev, n =>
    if day = d then (d, m.insert ev n) :: rest
    else if day < d then (day, EventMap.insert {} ev n) :: (d, m) :: rest
    else (d, m) :: insertAssign rest day ev n

/-- `Calendar::set_for`. -/
def Calendar.set_for (c : Calendar) (day : Int) (ev : Event) (n : Name) : Calendar :=
  { c with days := insertAssign c.days day ev n }

/-- `Calendar::get_for`. -/
def Calendar.get_for (c : Calendar) (day : Int) (ev : Event) : Option Name :=
  match c.days.find? (fun p => p.1 = day) with
  | none => none
  | some p => p.2.get ev

/-- The `BTreeMap` storage invariant of `Calendar`: entries strictly sorted
by day.  `Calendar::new` establishes it and `Calendar::set_for` preserves
it; under it the recursion of `find_next` provably consumes at most
`(cal.get_empty_days ev).length` nested calls, so the fuel chosen in
`find_next` is never exhausted (`find_next_aux_adequate`). -/
def Calendar.WF (c : Calendar) : Prop :=
  c.days.Pairwise (fun a b => a.1 < b.1)

/-- `Calendar::get_empty_days`: the stored days lacking an assignee for the
event, in storage (ascending) order. -/
def Calendar.get_empty_days (c : Calendar) (ev : Event) : List Int :=
  (c.days.filter (fun p => (p.2.get ev).isNone)).map (fun p => p.1)

/-! ## `lib.rs`: candidate selection, pruning, the solver and the
orchestrator. `AvailabilitiesPerPerson` (a `HashMap<Name, Availabilities>`)
is embedded as an association list; note that every use the program makes of
it is invariant under the (unspecified) hash iteration order, which is what
claim C8 asserts. -/

abbrev APP := List (Name × Availabilities)

/-- `CalendarMaker::is_on_call`. -/
def is_on_call (m : EventMap) (name : Name) : Bool :=
  decide (m.get Event.FirstDaily = some name) ||
  decide (m.get Event.FirstNightly = some name) ||
  decide (m.get Event.SecondDaily = some name) ||
  decide (m.get Event.SecondNightly = some name)

/-- The duty-load count used by `CalendarMaker::sort_names_by_least_on_call`:
the number of calendar days on which `name` is assigned to any event. -/
def onCallCount (cal : Calendar) (name : Name) : Nat :=
  (cal.days.map (fun p => p.2)).countP (fun m => is_on_call m name)

/-- `CalendarMaker::sort_names_by_least_on_call`: a stable sort of the
names by ascending duty load. -/
def sort_names_by_least_on_call (names : List Name) (cal : Calendar) : List Name :=
  isort (fun a b => onCallCount cal a < onCallCount cal b) names

/-- `CalendarMaker::is_weekend`. -/
def is_weekend (day : Int) : Bool :=
  weekday day = Weekday.saturday || weekday day = Weekday.sunday

/-- The loop body condition of `CalendarMaker::check_for_premature_stop`
for one consecutive pair of entries. -/
def prematurePair (ev : Event) (a b : Int × List Name) : Bool :=
  a.2.length = 1 &&
  !((is_weekend a.1 || is_weekend b.1) &&
      (ev = Event.SecondDaily || ev = Event.SecondNightly)) &&
  (a.1 - b.1).natAbs = 1 && a.2 = b.2

/-- `CalendarMaker::check_for_premature_stop`: scan the consecutive pairs of
the scarcity-grouped list, in order. -/
def check_for_premature_stop : List (Int × List Name) → Event → Bool
  | [], _ => false
  | [_], _ => false
  | a :: b :: rest, ev => prematurePair ev a b || check_for_premature_stop (b :: rest) ev

/-- The per-day candidate list built inside
`CalendarMaker::get_days_with_least_availabilities`: the persons whose
availability state still contains the event on the day, in map order. -/
def candidates (av : APP) (ev : Event) (day : Int) : List Name :=
  (av.filter (fun p => match p.2.get day with
    | none => false
    | some l => decide (ev ∈ l))).map (fun p => p.1)

/-- The `days_per_availabilities.entry(len).and_modify(push).or_insert` step. -/
def addToGroup : List (Nat × List Int) → Nat → Int → List (Nat × List Int)
  | [], k, d => [(k, [d])]
  | (k', ds) :: rest, k, d =>
    if k' = k then (k', ds ++ [d]) :: rest else (k', ds) :: addToGroup rest k d

/-- Build the scarcity groups by folding over the (sorted) days. -/
def buildGroups (av : APP) (ev : Event) : List Int → List (Nat × List Int) →
    List (Nat × List Int)
  | [], acc => acc
  | d :: ds, acc => buildGroups av ev ds (addToGroup acc (candidates av ev d).length d)

/-- Look up a scarcity group by candidate count. -/
def groupLookup (k : Nat) : List (Nat × List Int) → List Int
  | [] => []
  | (k', ds) :: rest => if k' = k then ds else groupLookup k rest

/-- `CalendarMaker::get_days_with_least_availabilities`: the days of
minimal candidate count, in ascending date order, each with its candidate
list sorted lexically.  (On an empty `within_days` the Rust panics on
`expect`; here the result is `[]`, a case its caller rules out.) -/
def get_days_with_least_availabilities (av : APP) (within_days : List Int)
    (ev : Event) : List (Int × List Name) :=
  let sortedDays := isort (fun a b : Int => decide (a < b)) within_days
  let groups := buildGroups av ev sortedDays []
  match listMinNat (groups.map (fun g => g.1)) with
  | none => []
  | some least =>
    (groupLookup least groups).map (fun d => (d, isort strLt (candidates av ev d)))

/-- Update one person's availability state in the map
(`availabilities.get_mut(name)` followed by `update_availabilities`). -/
def updatePerson (av : APP) (name : Name) (day : Int) (ev : Event) : APP :=
  av.map (fun p => if p.1 = name then (p.1, update_availabilities p.2 day ev) else p)

/-- Result quadruple of `CalendarMaker::find_next`. -/
abbrev FindRes := APP × Calendar × Option Int × Nat

/-- The inner loop of `CalendarMaker::find_next` over the fairness-ranked
candidate names of one day: `next` is the recursive call (at one less fuel).
`Sum.inl` is the early success return; `Sum.inr pd` means the names were
exhausted, carrying the current problematic day. -/
def go_names (next : APP → Calendar → Nat → FindRes) (ev : Event) (day : Int)
    (av : APP) (cal : Calendar) (depth : Nat) :
    List Name → Option Int → FindRes ⊕ Option Int
  | [], pd => Sum.inr pd
  | n :: ns, _pd =>
    let new_calendar := cal.set_for day ev n
    let new_availabilities := updatePerson av n day ev
    match next new_availabilities new_calendar (depth + 1) with
    | (rav, rcal, rpd, rdep) =>
      if (rcal.get_empty_days ev).isEmpty then Sum.inl (rav, rcal, none, rdep)
      else go_names next ev day av cal depth ns rpd

/-- The outer loop of `CalendarMaker::find_next` over the scarcity-minimal
days (the first permutation of `days_and_names`, i.e. its own order). -/
def go_days (next : APP → Calendar → Nat → FindRes) (ev : Event) (av : APP)
    (cal : Calendar) (depth : Nat) :
    List (Int × List Name) → Option Int → FindRes
  | [], pd => (av, cal, pd, depth)
  | (day, names) :: rest, _ =>
    if names.isEmpty then (av, cal, some day, depth + 1)
    else
      match go_names next ev day av cal depth
          (sort_names_by_least_on_call names cal) (some day) with
      | Sum.inl r => r
      | Sum.inr pd => go_days next ev av cal depth rest pd

/-- `CalendarMaker::find_next`, with an explicit recursion-fuel parameter
(the Rust recursion terminates because each recursive call fills one more
empty day; `find_next` below instantiates the fuel with that bound). -/
def find_next_aux : Nat → APP → Calendar → Event → Nat → FindRes
  | 0, av, cal, _, depth => (av, cal, none, depth)
  | fuel + 1, av, cal, ev, depth =>
    let remaining_days := cal.get_empty_days ev
    if remaining_days.isEmpty then (av, cal, none, depth)
    else
      let days_and_names := get_days_with_least_availabilities av remaining_days ev
      if check_for_premature_stop days_and_names ev then (av, cal, none, depth + 1)
      else
        go_days (fun av' cal' depth' => find_next_aux fuel av' cal' ev depth')
          ev av cal depth days_and_names none

/-- `CalendarMaker::find_next`: every recursive call fills one empty day of
the calendar, so `(cal.get_empty_days ev).length + 1` fuel is never
exhausted. -/
def find_next (av : APP) (cal : Calendar) (ev : Event) (depth : Nat) : FindRes :=
  find_next_aux ((cal.get_empty_days ev).length + 1) av cal ev depth

/-- `CalendarMaker::make_calendar_for_event`. -/
def make_calendar_for_event (cal : Calendar) (av : APP) (ev : Event) :
    Calendar × APP × Option Int :=
  match find_next av cal ev 0 with
  | (new_availabilities, new_calendar, problematic_day, _) =>
    if (new_calendar.get_empty_days ev).isEmpty then (new_calendar, new_availabilities, none)
    else (cal, av, problematic_day)

/-- The 24 permutations of the four events, in the lexicographic-by-index
order produced by itertools' `permutations`. -/
def allEventPerms : List (List Event) :=
  let e := fun i => match i with
    | 0 => Event.FirstDaily
    | 1 => Event.FirstNightly
    | 2 => Event.SecondDaily
    | _ => Event.SecondNightly
  [[0, 1, 2, 3], [0, 1, 3, 2], [0, 2, 1, 3], [0, 2, 3, 1], [0, 3, 1, 2], [0, 3, 2, 1],
   [1, 0, 2, 3], [1, 0, 3, 2], [1, 2, 0, 3], [1, 2, 3, 0], [1, 3, 0, 2], [1, 3, 2, 0],
   [2, 0, 1, 3], [2, 0, 3, 1], [2, 1, 0, 3], [2, 1, 3, 0], [2, 3, 0, 1], [2, 3, 1, 0],
   [3, 0, 1, 2], [3, 0, 2, 1], [3, 1, 0, 2], [3, 1, 2, 0], [3, 2, 0, 1],
   [3, 2, 1, 0]].map (fun p => p.map e)

/-- `ProblematicDays`: a `BTreeMap<(Date, Event), u8>` embedded as an
association list sorted by key. -/
abbrev ProblematicDays := List ((Int × Event) × Nat)

/-- Key order on `(Date, Event)` (the derived `Ord`: date first, then the
declaration order of the event). -/
def eventIdx : Event → Nat
  | .FirstDaily => 0
  | .FirstNightly => 1
  | .SecondDaily => 2
  | .SecondNightly => 3

def pdKeyLt (a b : Int × Event) : Bool :=
  a.1 < b.1 || (a.1 = b.1 && eventIdx a.2 < eventIdx b.2)

/-- `problematic_days.entry(key).and_modify(|v| *v += 1).or_insert(0)`
(note the Rust inserts `0`, not `1`, on first failure). -/
def pdBump : ProblematicDays → Int × Event → ProblematicDays
  | [], k => [(k, 0)]
  | (k', v) :: rest, k =>
    if k' = k then (k', v + 1) :: rest
    else if pdKeyLt k k' then (k, 0) :: (k', v) :: rest
    else (k', v) :: pdBump rest k

/-- Scan for the last maximal count, as Rust's `max_by_key` (which keeps the
last element among equal maxima). -/
def pdMaxAux (k : Int × Event) (v : Nat) : ProblematicDays → (Int × Event) × Nat
  | [] => (k, v)
  | (k', v') :: rest => if v' ≥ v then pdMaxAux k' v' rest else pdMaxAux k v rest

/-- `problematic_days.iter().max_by_key(|e| e.1)`. -/
def pdMax : ProblematicDays → Option (Int × Event)
  | [] => none
  | (k, v) :: rest => some (pdMaxAux k v rest).1

/-- The inner per-permutation loop of `CalendarMaker::try_all_permutations`:
run the solver for each event in order, stopping at the first event left
with unfilled days; returns the final state, the failing `(day, event)`
contribution (if any) and whether every event succeeded. -/
def runPerm (cal : Calendar) (av : APP) :
    List Event → Calendar × APP × Option (Int × Event) × Bool
  | [] => (cal, av, none, true)
  | ev :: rest =>
    match make_calendar_for_event cal av ev with
    | (cal', av', problematic_day) =>
      if (cal'.get_empty_days ev).isEmpty then runPerm cal' av' rest
      else
        (cal', av',
          match problematic_day with
          | some d => some (d, ev)
          | none => none,
          false)

/-- `CalendarMaker::try_all_permutations`: try the 24 event orders from the
same starting state, accumulating the problematic-day counts across failed
permutations; the first fully successful permutation wins. -/
def tryPermsAux (cal0 : Calendar) (av0 : APP) :
    List (List Event) → ProblematicDays → Except ProblematicDays (Calendar × APP)
  | [], pds => .error pds
  | perm :: restPerms, pds =>
    match runPerm cal0 av0 perm with
    | (cal, av, pday, ok) =>
      if ok then .ok (cal, av)
      else
        tryPermsAux cal0 av0 restPerms
          (match pday with
           | some k => pdBump pds k
           | none => pds)

def try_all_permutations (cal : Calendar) (av : APP) :
    Except ProblematicDays (Calendar × APP) :=
  tryPermsAux cal av allEventPerms []

/-- `CalendarMaker::add_subco_for_this_day_and_event`: build the CSV row of
the synthetic person (split into its day tokens) and merge it into the
availability map under the subcontractor's name. -/
def add_subco_for_this_day_and_event (calFrom calTo : Int) (av : APP)
    (subco_name : Name) (day : Int) (ev : Event) : APP :=
  let tokens :=
    List.replicate (day - calFrom).toNat "x" ++ [""] ++
      List.replicate (calTo - day).toNat "x"
  if subco_name ∈ av.map (fun p => p.1) then
    av.map (fun p =>
      if p.1 = subco_name then (p.1, p.2.merge calFrom ev tokens) else p)
  else
    av ++ [(subco_name, Availabilities.from_str calFrom ev tokens)]

/-- The escalation loop of `CalendarMaker::make_calendar`: `count` remaining
iterations of `for i in 0..=max_subcontractor`, `i` the current index.
Returns `none` where the Rust panics (`.unwrap()` on an empty
problematic-days map). -/
def make_calendar_loop (cal0 : Calendar) :
    Nat → Nat → APP → ProblematicDays → Option (Calendar × APP × ProblematicDays)
  | 0, _, av, pds => some (cal0, av, pds)
  | count + 1, i, av, pds =>
    match try_all_permutations cal0 av with
    | .ok (cal, av') => some (cal, av', pds)
    | .error pds' =>
      match pdMax pds' with
      | none => none
      | some (d, ev) =>
        let subco_name := "EXT-" ++ toString i
        let av' := add_subco_for_this_day_and_event cal0.fromDate cal0.toDate av
          subco_name d ev
        make_calendar_loop cal0 count (i + 1) av' pds'

/-- `CalendarMaker::make_calendar` (the resulting calendar, availabilities
and problematic-days state; `none` models the panic on an escalation round
that produced no problematic day). -/
def make_calendar (cal : Calendar) (av : APP) (max_subcontractor : Nat) :
    Option (Calendar × APP × ProblematicDays) :=
  make_calendar_loop cal (max_subcontractor + 1) 0 av []

/-! ## Year-aware model of `Calendar::new` and `Calendar::get_empty_days`
(`calendar.rs`).  Here dates carry their year and day-of-year ordinal, as
`time::Date` does, so that the `from.year()`/`from_ordinal_date` behaviour
of `Calendar::new` across year boundaries is captured. -/

namespace YearModel

/-- Proleptic-Gregorian leap-year rule of the `time` crate. -/
def isLeapYear (y : Int) : Bool := (y % 4 = 0 && !(y % 100 = 0)) || y % 400 = 0

def daysInYear (y : Int) : Nat := if isLeapYear y then 366 else 365

/-- A `time::Date`: a year and a day-of-year ordinal. -/
structure DateY where
  year : Int
  ordinal : Nat
deriving DecidableEq, Repr

/-- Validity of a `(year, ordinal)` pair as a `time::Date`. -/
def DateY.valid (d : DateY) : Prop := 1 ≤ d.ordinal ∧ d.ordinal ≤ daysInYear d.year

instance (d : DateY) : Decidable d.valid := by unfold DateY.valid; infer_instance

/-- `Date::from_ordinal_date` (`None` models the `Err` the Rust unwraps). -/
def from_ordinal_date (y : Int) (o : Nat) : Option DateY :=
  if 1 ≤ o ∧ o ≤ daysInYear y then some ⟨y, o⟩ else none

/-- The derived `Ord` on `time::Date`: year first, then ordinal. -/
def dateLt (a b : DateY) : Prop :=
  a.year < b.year ∨ (a.year = b.year ∧ a.ordinal < b.ordinal)

instance (a b : DateY) : Decidable (dateLt a b) := by unfold dateLt; infer_instance

def dateLe (a b : DateY) : Prop := dateLt a b ∨ a = b

instance (a b : DateY) : Decidable (dateLe a b) := by unfold dateLe; infer_instance

structure CalendarY where
  fromDate : DateY
  toDate : DateY
  days : List (DateY × EventMap)
deriving DecidableEq, Repr

/-- The entries built by the loop of `Calendar::new`: one per ordinal of
`from.ordinal()..=to.ordinal()`, each keyed by
`Date::from_ordinal_date(from.year(), ordinal)` (`none` models the panic on
an invalid ordinal). -/
def newDays (y : Int) : List Nat → Option (List (DateY × EventMap))
  | [] => some []
  | o :: os =>
    match from_ordinal_date y o with
    | none => none
    | some d => (newDays y os).map (fun rest => (d, ({} : EventMap)) :: rest)

/-- `Calendar::new` on year-aware dates. -/
def CalendarY.new (f t : DateY) : Option CalendarY :=
  (newDays f.year (List.range' f.ordinal (t.ordinal + 1 - f.ordinal))).map
    (fun ds => ⟨f, t, ds⟩)

/-- Ordered insertion/update for `Calendar::set_for` on year-aware dates. -/
def insertAssignY : List (DateY × EventMap) → DateY → Event → Name →
    List (DateY × EventMap)
  | [], day, ev, n => [(day, EventMap.insert {} ev n)]
  | (d, m) :: rest, day, ev, n =>
    if day = d then (d, m.insert ev n) :: rest
    else if dateLt day d then (day, EventMap.insert {} ev n) :: (d, m) :: rest
    else (d, m) :: insertAssignY rest day ev n

def CalendarY.set_for (c : CalendarY) (day : DateY) (ev : Event) (n : Name) :
    CalendarY :=
  { c with days := insertAssignY c.days day ev n }

/-- `Calendar::get_empty_days` on year-aware dates. -/
def CalendarY.get_empty_days (c : CalendarY) (ev : Event) : List DateY :=
  (c.days.filter (fun p => (p.2.get ev).isNone)).map (fun p => p.1)

/-- The `BTreeMap` storage invariant: entries strictly sorted by date. -/
def CalendarY.WF (c : CalendarY) : Prop :=
  c.days.Pairwise (fun a b => dateLt a.1 b.1)

end YearModel

/-! ## Concrete states used by counterexamples and witnesses. -/

/-- A person available for all four events on Thursday (day 3), Friday
(day 4), Saturday (day 5) and Sunday (day 6) — day index 4 falls on a
Friday under `weekday`. -/
def wkAllState : Availabilities := fun d =>
  if d = 3 ∨ d = 4 ∨ d = 5 ∨ d = 6 then
    some [Event.FirstDaily, Event.FirstNightly, Event.SecondDaily, Event.SecondNightly]
  else none

/-- A day (index 0) containing both daily events. -/
def dualDailyState : Availabilities := fun d =>
  if d = 0 then some [Event.FirstDaily, Event.SecondDaily] else none

/-- Alice of the end-to-end scenario: FirstDaily on days 1 and 3 only. -/
def aliceAv : Availabilities := fun d =>
  if d = 1 ∨ d = 3 then some [Event.FirstDaily]
  else if d = 2 then some [] else none

/-- Bob of the end-to-end scenario: FirstDaily on day 2 only. -/
def bobAv : Availabilities := fun d =>
  if d = 2 then some [Event.FirstDaily]
  else if d = 1 ∨ d = 3 then some [] else none

/-- The availability map of the end-to-end scenario. -/
def e2eApp : APP := [("Alice", aliceAv), ("Bob", bobAv)]

/-- The solver run of the end-to-end scenario: event `FirstDaily` over the
three-day calendar, starting from recursion depth 0. -/
def e2eResult : FindRes := find_next e2eApp (Calendar.new 1 3) Event.FirstDaily 0

/-! ## Relations used to state hash-iteration-order invariance (claim C8):
two pipeline states are related when their calendars and problematic-day
maps are equal and their availability maps are permutations of each other
(an association-list permutation models a different `HashMap` iteration
order over the same key-value pairs). -/

/-- Relatedness of two `find_next` results. -/
def FindResRel (r1 r2 : FindRes) : Prop := r1.1.Perm r2.1 ∧ r1.2 = r2.2

/-- Relatedness of two inner-loop (`go_names`) outcomes. -/
def GoRel : FindRes ⊕ Option Int → FindRes ⊕ Option Int → Prop
  | Sum.inl r1, Sum.inl r2 => FindResRel r1 r2
  | Sum.inr p1, Sum.inr p2 => p1 = p2
  | _, _ => False

/-- Relatedness of two `make_calendar_for_event` results. -/
def MceRel (r1 r2 : Calendar × APP × Option Int) : Prop :=
  r1.1 = r2.1 ∧ r1.2.1.Perm r2.2.1 ∧ r1.2.2 = r2.2.2

/-- Relatedness of two `runPerm` results. -/
def RunRel (r1 r2 : Calendar × APP × Option (Int × Event) × Bool) : Prop :=
  r1.1 = r2.1 ∧ r1.2.1.Perm r2.2.1 ∧ r1.2.2 = r2.2.2

/-- Relatedness of two `try_all_permutations` results. -/
def TapRel : Except ProblematicDays (Calendar × APP) →
    Except ProblematicDays (Calendar × APP) → Prop
  | .error p1, .error p2 => p1 = p2
  | .ok r1, .ok r2 => r1.1 = r2.1 ∧ r1.2.Perm r2.2
  | _, _ => False

/-- Relatedness of two `make_calendar` results. -/
def McRel : Option (Calendar × APP × ProblematicDays) →
    Option (Calendar × APP × ProblematicDays) → Prop
  | none, none => True
  | some r1, some r2 => r1.1 = r2.1 ∧ r1.2.1.Perm r2.2.1 ∧ r1.2.2 = r2.2.2
  | _, _ => False

/-! ## Helper lemmas about the availability-state operations. -/

theorem mem_of_mem_popFirst {l : List Event} {e x : Event} :
    x ∈ popFirst l e → x ∈ l := by
  induction l with
  | nil => simp [popFirst]
  | cons a as ih =>
    by_cases h : a = e
    · simp [popFirst, h]; intro hx; exact Or.inr hx
    · simp [popFirst, h]
      rintro (rfl | hx)
      · exact Or.inl rfl
      · exact Or.inr (ih hx)

theorem mem_popFirst_of_ne {l : List Event} {e x : Event}
    (hx : x ∈ l) (hne : x ≠ e) : x ∈ popFirst l e := by
  induction l with
  | nil => simp at hx
  | cons a as ih =>
    by_cases h : a = e
    · subst h
      simp [popFirst]
      rcases List.mem_cons.mp hx with rfl | hx
      · exact absurd rfl hne
      · exact hx
    · simp [popFirst, h]
      rcases List.mem_cons.mp hx with rfl | hx
      · exact Or.inl rfl
      · exact Or.inr (ih hx)

theorem nodup_popFirst {l : List Event} (h : l.Nodup) (e : Event) :
    (popFirst l e).Nodup := by
  induction l with
  | nil => simp [popFirst]
  | cons a as ih =>
    rcases List.nodup_cons.mp h with ⟨ha, has⟩
    by_cases hae : a = e
    · simpa [popFirst, hae] using has
    · simp only [popFirst, if_neg hae]
      exact List.nodup_cons.mpr ⟨fun hmem => ha (mem_of_mem_popFirst hmem), ih has⟩

theorem not_mem_popFirst_self {l : List Event} (h : l.Nodup) (e : Event) :
    e ∉ popFirst l e := by
  induction l with
  | nil => simp [popFirst]
  | cons a as ih =>
    rcases List.nodup_cons.mp h with ⟨ha, has⟩
    by_cases hae : a = e
    · subst hae; simpa [popFirst] using ha
    · simp only [popFirst, if_neg hae]
      intro hmem
      rcases List.mem_cons.mp hmem with rfl | hmem
      · exact hae rfl
      · exact ih has hmem

theorem not_mem_popFirst_of_not_mem {l : List Event} {e x : Event}
    (h : x ∉ l) : x ∉ popFirst l e :=
  fun hmem => h (mem_of_mem_popFirst hmem)

theorem pop_all_same (s : Availabilities) (day : Int) :
    (s.pop_all day) day = (s day).map (fun _ => ([] : List Event)) := by
  simp [Availabilities.pop_all]

theorem pop_all_other (s : Availabilities) {day d : Int} (h : d ≠ day) :
    (s.pop_all day) d = s d := by
  simp [Availabilities.pop_all, h]

theorem pop_event_same (s : Availabilities) (day : Int) (e : Event) :
    (s.pop_event day e) day = (s day).map (fun l => popFirst l e) := by
  simp [Availabilities.pop_event]

theorem pop_event_other (s : Availabilities) {day d : Int} (e : Event) (h : d ≠ day) :
    (s.pop_event day e) d = s d := by
  simp [Availabilities.pop_event, h]


/-! ## Theorems: evaluation lemmas for `update_availabilities`, then the
claim theorems. -/


theorem branch2_other (s : Availabilities) (b : Bool) (nd : Int) {d : Int} (e1 e2 : Event)
    (h : d ≠ nd) :
    (if b then (s.pop_event nd e1).pop_event nd e2 else s.pop_all nd) d = s d := by
  cases b <;> simp [pop_event_other _ _ h, pop_all_other _ h]

theorem update_eval_day (s : Availabilities) (day : Int) (e : Event) :
    update_availabilities s day e day =
      if isSecondWeekend e day then
        (s day).map (fun l =>
          popFirst (popFirst (popFirst l e) Event.FirstDaily) Event.FirstNightly)
      else (s day).map (fun _ => ([] : List Event)) := by
  have h1 : day ≠ day - 1 := by omega
  have h2 : day ≠ day + 1 := by omega
  unfold update_availabilities
  rw [branch2_other _ _ _ _ _ h1, branch2_other _ _ _ _ _ h2]
  by_cases hw : isSecondWeekend e day
  · simp [hw, pop_event_same, Option.map_map]
    rfl
  · simp [hw, pop_all_other _ h2, pop_all_other _ h1, pop_all_same, pop_event_same,
      Option.map_map]
    rfl



theorem update_eval_next (s : Availabilities) (day : Int) (e : Event) :
    update_availabilities s day e (day + 1) =
      if isSecondWeekend e day &&
          (weekday day = Weekday.friday || weekday day = Weekday.saturday) then
        (s (day + 1)).map
          (fun l => popFirst (popFirst l Event.FirstDaily) Event.FirstNightly)
      else (s (day + 1)).map (fun _ => ([] : List Event)) := by
  have h1 : day + 1 ≠ day - 1 := by omega
  have h2 : day + 1 ≠ day := by omega
  unfold update_availabilities
  rw [branch2_other _ _ _ _ _ h1]
  cases hw : isSecondWeekend e day <;>
    cases hc : (decide (weekday day = Weekday.friday) ||
      decide (weekday day = Weekday.saturday)) <;>
    simp [hw, hc, pop_event_same, pop_event_other _ _ h2, pop_all_same,
      pop_all_other _ h2, pop_all_other _ h1, Option.map_map] <;> rfl

theorem update_eval_prev (s : Availabilities) (day : Int) (e : Event) :
    update_availabilities s day e (day - 1) =
      if isSecondWeekend e day &&
          (weekday day = Weekday.saturday || weekday day = Weekday.sunday) then
        (s (day - 1)).map
          (fun l => popFirst (popFirst l Event.FirstDaily) Event.FirstNightly)
      else (s (day - 1)).map (fun _ => ([] : List Event)) := by
  have h1 : day - 1 ≠ day + 1 := by omega
  have h2 : day - 1 ≠ day := by omega
  unfold update_availabilities
  cases hw : isSecondWeekend e day <;>
    cases hp : (decide (weekday day = Weekday.saturday) ||
      decide (weekday day = Weekday.sunday)) <;>
    cases hn : (decide (weekday day = Weekday.friday) ||
      decide (weekday day = Weekday.saturday)) <;>
    simp [hw, hp, hn, pop_event_same, pop_event_other _ _ h2, pop_event_other _ _ h1,
      pop_all_same, pop_all_other _ h2, pop_all_other _ h1, Option.map_map] <;> rfl



theorem update_eval_other (s : Availabilities) (day : Int) (e : Event) {d : Int}
    (h1 : d ≠ day - 1) (h2 : d ≠ day) (h3 : d ≠ day + 1) :
    update_availabilities s day e d = s d := by
  unfold update_availabilities
  rw [branch2_other _ _ _ _ _ h1, branch2_other _ _ _ _ _ h3]
  cases hw : isSecondWeekend e day <;>
    simp [hw, pop_all_other _ h1, pop_all_other _ h2, pop_all_other _ h3,
      pop_event_other _ _ h2]

/-- Claim C1 (amended).  For every availability state, day `d` and event `e`:
when `e` is not a second-level event on a Friday/Saturday/Sunday, the
assignment update clears `d`, `d-1` and `d+1` entirely (any present entry is
left with no events); under the second-level-weekend exception the entry for
`d` (when duplicate-free) is left containing only second-level events other
than `e` — the original claim's unconditional "d has no remaining events" is
refuted by `claim1_counterexample`. -/
theorem claim1_update_adjacent_clearing (s : Availabilities) (day : Int) (e : Event) :
    (isSecondWeekend e day = false →
      (∀ l, update_availabilities s day e day = some l → l = []) ∧
      (∀ l, update_availabilities s day e (day - 1) = some l → l = []) ∧
      (∀ l, update_availabilities s day e (day + 1) = some l → l = [])) ∧
    (isSecondWeekend e day = true →
      ∀ l, s day = some l → l.Nodup →
        ∀ l', update_availabilities s day e day = some l' →
          ∀ x ∈ l', (x = Event.SecondDaily ∨ x = Event.SecondNightly) ∧ x ≠ e) := by
  constructor
  · intro hw
    refine ⟨?_, ?_, ?_⟩
    · intro l hl
      rw [update_eval_day] at hl
      simp [hw] at hl
      rcases hl with ⟨a, _, rfl⟩
      rfl
    · intro l hl
      rw [update_eval_prev] at hl
      simp [hw] at hl
      rcases hl with ⟨a, _, rfl⟩
      rfl
    · intro l hl
      rw [update_eval_next] at hl
      simp [hw] at hl
      rcases hl with ⟨a, _, rfl⟩
      rfl
  · intro hw l hsl hnd l' hl' x hx
    rw [update_eval_day, hsl] at hl'
    simp [hw] at hl'
    subst hl'
    have hz : (popFirst l e).Nodup := nodup_popFirst hnd e
    have hy : (popFirst (popFirst l e) Event.FirstDaily).Nodup := nodup_popFirst hz _
    have hxy := mem_of_mem_popFirst hx
    have hxz := mem_of_mem_popFirst hxy
    have hxe : x ≠ e := fun h => (not_mem_popFirst_self hnd e) (h ▸ hxz)
    have hxFD : x ≠ Event.FirstDaily := fun h => (not_mem_popFirst_self hz _) (h ▸ hxy)
    have hxFN : x ≠ Event.FirstNightly := fun h => (not_mem_popFirst_self hy _) (h ▸ hx)
    refine ⟨?_, hxe⟩
    cases x
    · exact absurd rfl hxFD
    · exact absurd rfl hxFN
    · exact Or.inl rfl
    · exact Or.inr rfl

theorem claim1_counterexample :
    isSecondWeekend Event.SecondDaily 4 = true ∧
    update_availabilities wkAllState 4 Event.SecondDaily 4 = some [Event.SecondNightly] ∧
    some [Event.SecondNightly] ≠ some ([] : List Event) := by decide

theorem claim1_witness :
    (isSecondWeekend Event.FirstDaily 3 = false ∧
      ((∀ l, update_availabilities wkAllState 3 Event.FirstDaily 3 = some l → l = []) ∧
       (∀ l, update_availabilities wkAllState 3 Event.FirstDaily (3 - 1) = some l → l = []) ∧
       (∀ l, update_availabilities wkAllState 3 Event.FirstDaily (3 + 1) = some l → l = []))) ∧
    ((Event.SecondNightly = Event.SecondDaily ∨ Event.SecondNightly = Event.SecondNightly) ∧
      Event.SecondNightly ≠ Event.SecondDaily) :=
  ⟨⟨by decide, (claim1_update_adjacent_clearing wkAllState 3 Event.FirstDaily).1 (by decide)⟩,
    (claim1_update_adjacent_clearing wkAllState 4 Event.SecondDaily).2 (by decide)
      [Event.FirstDaily, Event.FirstNightly, Event.SecondDaily, Event.SecondNightly]
      (by decide) (by decide) [Event.SecondNightly] (by decide)
      Event.SecondNightly (by decide)⟩



/-- Claim C2 (amended).  For every state whose Friday `d`, Saturday `d+1`
and Sunday `d+2` entries contain all four events (Saturday duplicate-free),
assigning `SecondDaily` on the Friday leaves Saturday with `SecondDaily` and
`SecondNightly` still present and the first-level events removed, while
Sunday's entry is completely untouched — so, contrary to the original claim
(refuted by `claim2_counterexample`), `FirstDaily`/`FirstNightly` are still
present on Sunday. -/
theorem claim2_friday_second (s : Availabilities) (d : Int)
    (hf : weekday d = Weekday.friday)
    (lF lS lU : List Event)
    (_hF : s d = some lF) (hS : s (d + 1) = some lS) (hU : s (d + 2) = some lU)
    (_hFm : ∀ ev : Event, ev ∈ lF) (hSm : ∀ ev : Event, ev ∈ lS)
    (hUm : ∀ ev : Event, ev ∈ lU) (hSn : lS.Nodup) :
    (∃ lS', update_availabilities s d Event.SecondDaily (d + 1) = some lS' ∧
      Event.SecondDaily ∈ lS' ∧ Event.SecondNightly ∈ lS' ∧
      Event.FirstDaily ∉ lS' ∧ Event.FirstNightly ∉ lS') ∧
    update_availabilities s d Event.SecondDaily (d + 2) = some lU ∧
    Event.SecondDaily ∈ lU ∧ Event.SecondNightly ∈ lU ∧
    Event.FirstDaily ∈ lU ∧ Event.FirstNightly ∈ lU := by
  have hw : isSecondWeekend Event.SecondDaily d = true := by
    simp [isSecondWeekend, hf]
  constructor
  · refine ⟨popFirst (popFirst lS Event.FirstDaily) Event.FirstNightly, ?_, ?_, ?_, ?_, ?_⟩
    · rw [update_eval_next, hS]
      simp [hw, hf]
    · exact mem_popFirst_of_ne
        (mem_popFirst_of_ne (hSm Event.SecondDaily) (by decide)) (by decide)
    · exact mem_popFirst_of_ne
        (mem_popFirst_of_ne (hSm Event.SecondNightly) (by decide)) (by decide)
    · exact not_mem_popFirst_of_not_mem (not_mem_popFirst_self hSn _)
    · exact not_mem_popFirst_self (nodup_popFirst hSn _) _
  · have h2 : update_availabilities s d Event.SecondDaily (d + 2) = s (d + 2) :=
      update_eval_other s d Event.SecondDaily (by omega) (by omega) (by omega)
    rw [h2, hU]
    exact ⟨rfl, hUm _, hUm _, hUm _, hUm _⟩

theorem claim2_counterexample :
    weekday 4 = Weekday.friday ∧
    wkAllState 4 = some [Event.FirstDaily, Event.FirstNightly,
      Event.SecondDaily, Event.SecondNightly] ∧
    wkAllState 5 = some [Event.FirstDaily, Event.FirstNightly,
      Event.SecondDaily, Event.SecondNightly] ∧
    wkAllState 6 = some [Event.FirstDaily, Event.FirstNightly,
      Event.SecondDaily, Event.SecondNightly] ∧
    Event.FirstDaily ∈ (update_availabilities wkAllState 4 Event.SecondDaily 6).getD [] ∧
    Event.FirstNightly ∈ (update_availabilities wkAllState 4 Event.SecondDaily 6).getD [] := by
  decide

theorem claim2_witness :
    weekday 4 = Weekday.friday ∧
    ((∃ lS', update_availabilities wkAllState 4 Event.SecondDaily (4 + 1) = some lS' ∧
      Event.SecondDaily ∈ lS' ∧ Event.SecondNightly ∈ lS' ∧
      Event.FirstDaily ∉ lS' ∧ Event.FirstNightly ∉ lS') ∧
    update_availabilities wkAllState 4 Event.SecondDaily (4 + 2) =
      some [Event.FirstDaily, Event.FirstNightly, Event.SecondDaily, Event.SecondNightly] ∧
    Event.SecondDaily ∈ [Event.FirstDaily, Event.FirstNightly,
      Event.SecondDaily, Event.SecondNightly] ∧
    Event.SecondNightly ∈ [Event.FirstDaily, Event.FirstNightly,
      Event.SecondDaily, Event.SecondNightly] ∧
    Event.FirstDaily ∈ [Event.FirstDaily, Event.FirstNightly,
      Event.SecondDaily, Event.SecondNightly] ∧
    Event.FirstNightly ∈ [Event.FirstDaily, Event.FirstNightly,
      Event.SecondDaily, Event.SecondNightly]) :=
  ⟨by decide,
    claim2_friday_second wkAllState 4 (by decide)
      [Event.FirstDaily, Event.FirstNightly, Event.SecondDaily, Event.SecondNightly]
      [Event.FirstDaily, Event.FirstNightly, Event.SecondDaily, Event.SecondNightly]
      [Event.FirstDaily, Event.FirstNightly, Event.SecondDaily, Event.SecondNightly]
      (by decide) (by decide) (by decide)
      (by decide) (by decide) (by decide) (by decide)⟩

/-- Claim C3 (amended).  `pop_event` removes only the requested event: on a
day containing both `FirstDaily` and `SecondDaily`, popping `FirstDaily`
leaves `SecondDaily` present and popping `SecondDaily` leaves `FirstDaily`
present — there is no joint removal of the daily pair, refuting the original
claim (`claim3_counterexample`). -/
theorem claim3_pop_single (s : Availabilities) (day : Int) (l : List Event)
    (h : s day = some l) (h1 : Event.FirstDaily ∈ l) (h2 : Event.SecondDaily ∈ l) :
    (∃ l', (s.pop_event day Event.FirstDaily) day = some l' ∧ Event.SecondDaily ∈ l') ∧
    (∃ l', (s.pop_event day Event.SecondDaily) day = some l' ∧ Event.FirstDaily ∈ l') := by
  constructor
  · exact ⟨popFirst l Event.FirstDaily, by rw [pop_event_same, h]; rfl,
      mem_popFirst_of_ne h2 (by decide)⟩
  · exact ⟨popFirst l Event.SecondDaily, by rw [pop_event_same, h]; rfl,
      mem_popFirst_of_ne h1 (by decide)⟩

theorem claim3_counterexample :
    dualDailyState 0 = some [Event.FirstDaily, Event.SecondDaily] ∧
    (dualDailyState.pop_event 0 Event.FirstDaily) 0 = some [Event.SecondDaily] ∧
    Event.SecondDaily ∈ ((dualDailyState.pop_event 0 Event.FirstDaily) 0).getD [] ∧
    (dualDailyState.pop_event 0 Event.SecondDaily) 0 = some [Event.FirstDaily] ∧
    Event.FirstDaily ∈ ((dualDailyState.pop_event 0 Event.SecondDaily) 0).getD [] := by
  decide

theorem claim3_witness :
    (∃ l', (dualDailyState.pop_event 0 Event.FirstDaily) 0 = some l' ∧
      Event.SecondDaily ∈ l') ∧
    (∃ l', (dualDailyState.pop_event 0 Event.SecondDaily) 0 = some l' ∧
      Event.FirstDaily ∈ l') :=
  claim3_pop_single dualDailyState 0 [Event.FirstDaily, Event.SecondDaily]
    (by decide) (by decide) (by decide)



/-- Claim C7.  On the concrete 3-day instance where Alice is available for
`FirstDaily` on days 1 and 3 only and Bob on day 2 only, the backtracking
solver `find_next` terminates with the roster Alice→1, Bob→2, Alice→3 and
no unfilled day for `FirstDaily`. -/
theorem claim7_end_to_end :
    e2eResult.2.1.get_for 1 Event.FirstDaily = some "Alice" ∧
    e2eResult.2.1.get_for 2 Event.FirstDaily = some "Bob" ∧
    e2eResult.2.1.get_for 3 Event.FirstDaily = some "Alice" ∧
    e2eResult.2.1.get_empty_days Event.FirstDaily = [] := by decide

/-- Claim C4 (code bug).  Evaluating
`add_subco_for_this_day_and_event` on the 3-day calendar 1..3 with contested
day 2 and event `FirstDaily`: the synthetic person `EXT-0` is created with
`FirstDaily` availability on days 1 and 3 and an empty entry on the
contested day 2 — the exact opposite of the claimed (and documented)
"available that day only, for that event only" scoping. -/
theorem claim4_subco_inverted :
    add_subco_for_this_day_and_event 1 3 [] "EXT-0" 2 Event.FirstDaily =
      [("EXT-0", Availabilities.from_str 1 Event.FirstDaily ["x", "", "x"])] ∧
    Availabilities.from_str 1 Event.FirstDaily ["x", "", "x"] 1 = some [Event.FirstDaily] ∧
    Availabilities.from_str 1 Event.FirstDaily ["x", "", "x"] 2 = some [] ∧
    Availabilities.from_str 1 Event.FirstDaily ["x", "", "x"] 3 = some [Event.FirstDaily] ∧
    (∀ d : Int, d ≠ 1 → d ≠ 2 → d ≠ 3 →
      Availabilities.from_str 1 Event.FirstDaily ["x", "", "x"] d = none) := by
  refine ⟨rfl, by decide, by decide, by decide, ?_⟩
  intro d h1 h2 h3
  simp [Availabilities.from_str, mapFromStr, h1, h2]
  intro h
  omega

/-- Claim C9 (amended).  `merge` is additive concatenation per day, not a
set union: the merged entry's occurrence count of every event is the sum of
the operands' counts, and merging the identical duty-level row into the
state it created doubles each day's list — so duplicates do occur and merge
is not idempotent, refuting the original claim (`claim9_counterexample`). -/
theorem claim9_merge_count (s : Availabilities) (fromD : Int) (level : Event)
    (tokens : List String) (d : Int) (ev : Event) :
    (((s.merge fromD level tokens) d).getD []).count ev =
      ((s d).getD []).count ev + (((mapFromStr fromD level tokens) d).getD []).count ev ∧
    ((Availabilities.from_str fromD level tokens).merge fromD level tokens) d =
      ((mapFromStr fromD level tokens) d).map (fun l => l ++ l) := by
  constructor
  · unfold Availabilities.merge
    cases hn : mapFromStr fromD level tokens d <;> cases hs : s d <;>
      simp [hn, hs, List.count_append]
  · unfold Availabilities.merge Availabilities.from_str
    cases hn : mapFromStr fromD level tokens d <;> simp [hn]

theorem claim9_counterexample :
    ((Availabilities.from_str 0 Event.FirstDaily ["x"]).merge 0 Event.FirstDaily ["x"]) 0 =
      some [Event.FirstDaily, Event.FirstDaily] ∧
    ¬ ([Event.FirstDaily, Event.FirstDaily] : List Event).Nodup ∧
    ((Availabilities.from_str 0 Event.FirstDaily ["x"]).merge 0 Event.FirstDaily ["x"]) 0 ≠
      (Availabilities.from_str 0 Event.FirstDaily ["x"]) 0 := by decide



theorem insertLt_perm (lt : α → α → Bool) (a : α) (l : List α) :
    (insertLt lt a l).Perm (a :: l) := by
  induction l with
  | nil => simp [insertLt]
  | cons b bs ih =>
    by_cases h : lt b a = true
    · simp only [insertLt, if_pos h]
      exact (ih.cons b).trans (List.Perm.swap a b bs)
    · simp [insertLt, h]

theorem mem_insertLt (lt : α → α → Bool) (a c : α) (l : List α) :
    c ∈ insertLt lt a l ↔ c = a ∨ c ∈ l := by
  rw [(insertLt_perm lt a l).mem_iff]
  simp

theorem isort_perm (lt : α → α → Bool) (l : List α) : (isort lt l).Perm l := by
  induction l with
  | nil => simp [isort]
  | cons x xs ih =>
    exact (insertLt_perm lt x (isort lt xs)).trans (ih.cons x)

theorem pairwise_insertLt (lt : α → α → Bool) (R : α → α → Prop)
    (htrans : Transitive R)
    (h1 : ∀ x y, lt x y = true → R x y) (h2 : ∀ x y, lt y x = false → R x y)
    (a : α) (l : List α) (hl : l.Pairwise R) :
    (insertLt lt a l).Pairwise R := by
  induction l with
  | nil => simp [insertLt]
  | cons b bs ih =>
    rcases List.pairwise_cons.mp hl with ⟨hb, hbs⟩
    by_cases h : lt b a = true
    · simp only [insertLt, if_pos h]
      refine List.pairwise_cons.mpr ⟨?_, ih hbs⟩
      intro c hc
      rcases (mem_insertLt lt a c bs).mp hc with rfl | hc
      · exact h1 _ _ h
      · exact hb c hc
    · simp only [insertLt, if_neg h]
      refine List.pairwise_cons.mpr ⟨?_, hl⟩
      intro c hc
      rcases List.mem_cons.mp hc with rfl | hc
      · exact h2 a c (by simpa using h)
      · exact htrans (h2 a b (by simpa using h)) (hb c hc)

theorem pairwise_isort (lt : α → α → Bool) (R : α → α → Prop)
    (htrans : Transitive R)
    (h1 : ∀ x y, lt x y = true → R x y) (h2 : ∀ x y, lt y x = false → R x y)
    (l : List α) : (isort lt l).Pairwise R := by
  induction l with
  | nil => simp [isort]
  | cons x xs ih => exact pairwise_insertLt lt R htrans h1 h2 x (isort lt xs) ih

theorem pairwise_insertLt_key (key : α → Nat) (R' : α → α → Prop)
    (a : α) (l : List α)
    (hl : l.Pairwise (fun x y => key x < key y ∨ (key x = key y ∧ R' x y)))
    (hties : ∀ c ∈ l, R' a c) :
    (insertLt (fun x y => decide (key x < key y)) a l).Pairwise
      (fun x y => key x < key y ∨ (key x = key y ∧ R' x y)) := by
  induction l with
  | nil => simp [insertLt]
  | cons b bs ih =>
    rcases List.pairwise_cons.mp hl with ⟨hb, hbs⟩
    by_cases h : key b < key a
    · simp only [insertLt, decide_eq_true_eq, if_pos h]
      refine List.pairwise_cons.mpr ⟨?_, ih hbs (fun c hc => hties c (List.mem_cons_of_mem b hc))⟩
      intro c hc
      rcases (mem_insertLt _ a c bs).mp hc with rfl | hc
      · exact Or.inl h
      · exact hb c hc
    · simp only [insertLt, decide_eq_true_eq, if_neg h]
      have hab : key a ≤ key b := Nat.le_of_not_lt h
      refine List.pairwise_cons.mpr ⟨?_, hl⟩
      intro c hc
      rcases List.mem_cons.mp hc with rfl | hc
      · rcases Nat.lt_or_eq_of_le hab with hlt | heq
        · exact Or.inl hlt
        · exact Or.inr ⟨heq, hties c (List.mem_cons_self _ _)⟩
      · rcases hb c hc with hbc | ⟨hbc, _⟩
        · exact Or.inl (Nat.lt_of_le_of_lt hab hbc)
        · rcases Nat.lt_or_eq_of_le hab with hlt | heq
          · exact Or.inl (hlt.trans_le hbc.le)
          · exact Or.inr ⟨heq.trans hbc, hties c (List.mem_cons_of_mem b hc)⟩

theorem pairwise_isort_key (key : α → Nat) (R' : α → α → Prop)
    (l : List α) (hl : l.Pairwise R') :
    (isort (fun x y => decide (key x < key y)) l).Pairwise
      (fun x y => key x < key y ∨ (key x = key y ∧ R' x y)) := by
  induction l with
  | nil => simp [isort]
  | cons x xs ih =>
    rcases List.pairwise_cons.mp hl with ⟨hx, hxs⟩
    refine pairwise_insertLt_key key R' x (isort _ xs) (ih hxs) ?_
    intro c hc
    exact hx c ((isort_perm _ xs).mem_iff.mp hc)

theorem charListLt_irrefl : ∀ x : List Char, charListLt x x = false := by
  intro x
  induction x with
  | nil => rfl
  | cons a as ih => simp [charListLt, ih]

theorem charListLt_trans : ∀ {x y z : List Char},
    charListLt x y = true → charListLt y z = true → charListLt x z = true := by
  intro x
  induction x with
  | nil =>
    intro y z h1 h2
    cases y with
    | nil => exact absurd h1 (by simp [charListLt])
    | cons b bs =>
      cases z with
      | nil => exact absurd h2 (by simp [charListLt])
      | cons c cs => simp [charListLt]
  | cons a as ih =>
    intro y z h1 h2
    cases y with
    | nil => exact absurd h1 (by simp [charListLt])
    | cons b bs =>
      cases z with
      | nil => exact absurd h2 (by simp [charListLt])
      | cons c cs =>
        simp only [charListLt] at h1 h2 ⊢
        by_cases hab : a < b
        · by_cases hbc : b < c
          · simp [hab.trans hbc]
          · by_cases hcb : c < b
            · simp [hab, hbc, hcb] at h2
            · have : b = c := le_antisymm (not_lt.mp hcb) (not_lt.mp hbc)
              subst this
              simp [hab]
        · by_cases hba : b < a
          · simp [hab, hba] at h1
          · have : a = b := le_antisymm (not_lt.mp hba) (not_lt.mp hab)
            subst this
            simp only [if_neg hab, if_neg hab] at h1
            by_cases hbc : a < c
            · simp [hbc]
            · by_cases hcb : c < a
              · simp [hbc, hcb] at h2
              · simp only [if_neg hbc, if_neg hcb] at h2 ⊢
                exact ih h1 h2

theorem charListLt_connex : ∀ {x y : List Char},
    charListLt x y = false → charListLt y x = false → x = y := by
  intro x
  induction x with
  | nil =>
    intro y h1 _
    cases y with
    | nil => rfl
    | cons b bs => simp [charListLt] at h1
  | cons a as ih =>
    intro y h1 h2
    cases y with
    | nil => simp [charListLt] at h2
    | cons b bs =>
      simp only [charListLt] at h1 h2
      by_cases hab : a < b
      · simp [hab] at h1
      · by_cases hba : b < a
        · simp [hba, hab] at h2
        · have : a = b := le_antisymm (not_lt.mp hba) (not_lt.mp hab)
          subst this
          simp only [if_neg hab] at h1 h2
          rw [ih h1 h2]

theorem charListLt_asymm {x y : List Char}
    (h : charListLt x y = true) : charListLt y x = false := by
  by_contra hc
  have := charListLt_trans h (Bool.of_not_eq_false hc)
  rw [charListLt_irrefl x] at this
  cases this

theorem charListLe_trans {x y z : List Char}
    (h1 : charListLt y x = false) (h2 : charListLt z y = false) :
    charListLt z x = false := by
  by_contra hc
  have hzx := Bool.of_not_eq_false hc
  by_cases hxy : charListLt x y = true
  · have := charListLt_trans hzx hxy
    rw [h2] at this
    cases this
  · have : x = y := charListLt_connex (Bool.not_eq_true _ ▸ hxy : charListLt x y = false) h1
    subst this
    rw [h2] at hzx
    cases hzx

theorem strLt_asymm {x y : String} (h : strLt x y = true) : strLt y x = false :=
  charListLt_asymm h

theorem strLe_trans {x y z : String}
    (h1 : strLt y x = false) (h2 : strLt z y = false) : strLt z x = false :=
  charListLe_trans h1 h2

theorem strLt_connex {x y : String} (h1 : strLt x y = false) (h2 : strLt y x = false) :
    x = y := by
  have h := charListLt_connex (x := x.data) (y := y.data) h1 h2
  cases x; cases y
  simp only at h
  rw [h]



theorem groupLookup_addToGroup (g : List (Nat × List Int)) (k k' : Nat) (d : Int) :
    groupLookup k' (addToGroup g k d) =
      if k' = k then groupLookup k' g ++ [d] else groupLookup k' g := by
  induction g with
  | nil =>
    by_cases h : k' = k <;> simp_all [addToGroup, groupLookup, eq_comm]
  | cons p rest ih =>
    obtain ⟨kk, ds⟩ := p
    by_cases hkk : kk = k <;> by_cases h2 : kk = k' <;> by_cases h3 : k' = k <;>
      simp_all [addToGroup, groupLookup]

theorem keys_addToGroup (g : List (Nat × List Int)) (k k' : Nat) (d : Int) :
    k' ∈ (addToGroup g k d).map (fun p => p.1) ↔
      k' ∈ g.map (fun p => p.1) ∨ k' = k := by
  induction g with
  | nil => simp [addToGroup]
  | cons p rest ih =>
    obtain ⟨kk, ds⟩ := p
    by_cases hk : kk = k
    · subst hk
      simp [addToGroup]
      tauto
    · simp [addToGroup, hk, ih]
      tauto

theorem buildGroups_lookup (av : APP) (ev : Event) :
    ∀ (days : List Int) (acc : List (Nat × List Int)) (k : Nat),
      groupLookup k (buildGroups av ev days acc) =
        groupLookup k acc ++ days.filter (fun d => (candidates av ev d).length = k) := by
  intro days
  induction days with
  | nil => intro acc k; simp [buildGroups]
  | cons d ds ih =>
    intro acc k
    rw [buildGroups, ih, groupLookup_addToGroup]
    by_cases h : (candidates av ev d).length = k
    · simp [h, List.filter_cons]
    · simp only [List.filter_cons]
      have : ¬ k = (candidates av ev d).length := fun hc => h hc.symm
      simp [this, h]

theorem buildGroups_keys (av : APP) (ev : Event) :
    ∀ (days : List Int) (acc : List (Nat × List Int)) (k : Nat),
      k ∈ (buildGroups av ev days acc).map (fun p => p.1) ↔
        k ∈ acc.map (fun p => p.1) ∨ ∃ d ∈ days, (candidates av ev d).length = k := by
  intro days
  induction days with
  | nil => intro acc k; simp [buildGroups]
  | cons d ds ih =>
    intro acc k
    rw [buildGroups, ih, keys_addToGroup]
    constructor
    · rintro ((h | h) | h)
      · exact Or.inl h
      · exact Or.inr ⟨d, List.mem_cons_self _ _, h.symm⟩
      · obtain ⟨d', hd', hk⟩ := h
        exact Or.inr ⟨d', List.mem_cons_of_mem _ hd', hk⟩
    · rintro (h | ⟨d', hd', hk⟩)
      · exact Or.inl (Or.inl h)
      · rcases List.mem_cons.mp hd' with rfl | hd'
        · exact Or.inl (Or.inr hk.symm)
        · exact Or.inr ⟨d', hd', hk⟩

theorem listMinNat_spec :
    ∀ {l : List Nat} {m : Nat}, listMinNat l = some m → m ∈ l ∧ ∀ x ∈ l, m ≤ x := by
  intro l
  induction l with
  | nil => intro m h; simp [listMinNat] at h
  | cons x xs ih =>
    intro m h
    simp only [listMinNat, Option.some.injEq] at h
    cases hxs : listMinNat xs with
    | none =>
      rw [hxs] at h
      replace h : x = m := by simpa using h
      cases xs with
      | nil =>
        subst h
        refine ⟨List.mem_cons_self _ _, ?_⟩
        intro z hz
        rcases List.mem_cons.mp hz with rfl | hz
        · exact le_refl _
        · simp at hz
      | cons y ys => simp [listMinNat] at hxs
    | some m' =>
      rw [hxs] at h
      replace h : min x m' = m := by simpa using h
      obtain ⟨hm', hall⟩ := ih hxs
      subst h
      refine ⟨?_, ?_⟩
      · rcases le_total x m' with hle | hle
        · rw [min_eq_left hle]; exact List.mem_cons_self _ _
        · rw [min_eq_right hle]; exact List.mem_cons_of_mem _ hm'
      · intro z hz
        rcases List.mem_cons.mp hz with rfl | hz
        · exact min_le_left _ _
        · exact le_trans (min_le_right _ _) (hall z hz)

theorem listMinNat_isSome {l : List Nat} (h : l ≠ []) : ∃ m, listMinNat l = some m := by
  cases l with
  | nil => exact absurd rfl h
  | cons x xs => exact ⟨_, rfl⟩



theorem prematurePair_iff (ev : Event) (a b : Int × List Name) :
    prematurePair ev a b = true ↔
      (∃ n, a.2 = [n] ∧ b.2 = [n]) ∧ (a.1 - b.1).natAbs = 1 ∧
      ¬((ev = Event.SecondDaily ∨ ev = Event.SecondNightly) ∧
        (is_weekend a.1 = true ∨ is_weekend b.1 = true)) := by
  unfold prematurePair
  simp only [Bool.and_eq_true, Bool.not_eq_true', Bool.and_eq_false_iff,
    Bool.or_eq_true, decide_eq_true_eq, Bool.or_eq_false_iff,
    decide_eq_false_iff_not]
  constructor
  · rintro ⟨⟨⟨hlen, hex⟩, hadj⟩, heq⟩
    refine ⟨?_, hadj, ?_⟩
    · obtain ⟨n, hn⟩ := List.length_eq_one.mp hlen
      exact ⟨n, hn, heq ▸ hn⟩
    · rintro ⟨hsec, hwk⟩
      rcases hex with hw | hs
      · rcases hwk with h | h <;> simp_all
      · rcases hsec with h | h <;> simp_all
  · rintro ⟨⟨n, hn1, hn2⟩, hadj, hnex⟩
    refine ⟨⟨⟨by rw [hn1]; rfl, ?_⟩, hadj⟩, by rw [hn1, hn2]⟩
    by_cases hsec : ev = Event.SecondDaily ∨ ev = Event.SecondNightly
    · left
      constructor <;> {
        rw [Bool.eq_false_iff]
        intro hw
        exact hnex ⟨hsec, by tauto⟩ }
    · right
      constructor <;> (intro h; exact hsec (by tauto))

/-- Claim C6.  `check_for_premature_stop` returns `true` exactly when some
pair of consecutive entries `i`, `i+1` of the scarcity-grouped list has both
candidate lists equal to the same single candidate, the two days
calendar-adjacent, and the pair not exempt (exempt iff the event is
second-level and at least one of the two days is a weekend day); in
particular it returns `false` whenever every pair is exempt or the candidate
lists differ. -/
theorem claim6_premature_stop_iff (dn : List (Int × List Name)) (ev : Event) :
    check_for_premature_stop dn ev = true ↔
      ∃ (i : Nat) (a b : Int × List Name),
        dn[i]? = some a ∧ dn[i + 1]? = some b ∧
        (∃ n, a.2 = [n] ∧ b.2 = [n]) ∧ (a.1 - b.1).natAbs = 1 ∧
        ¬((ev = Event.SecondDaily ∨ ev = Event.SecondNightly) ∧
          (is_weekend a.1 = true ∨ is_weekend b.1 = true)) := by
  induction dn with
  | nil =>
    simp [check_for_premature_stop]
  | cons a tl ih =>
    cases tl with
    | nil =>
      simp only [check_for_premature_stop, Bool.false_eq_true, false_iff]
      rintro ⟨i, a', b', h1, h2, _⟩
      cases i <;> simp at h2
    | cons b rest =>
      rw [check_for_premature_stop, Bool.or_eq_true, ih, prematurePair_iff]
      constructor
      · rintro (hP | ⟨i, a', b', h1, h2, hP⟩)
        · exact ⟨0, a, b, by simp, by simp, hP⟩
        · exact ⟨i + 1, a', b', by simpa using h1, by simpa using h2, hP⟩
      · rintro ⟨i, a', b', h1, h2, hP⟩
        cases i with
        | zero =>
          simp only [List.getElem?_cons_zero, List.getElem?_cons_succ,
            Option.some.injEq] at h1 h2
          subst h1
          subst h2
          exact Or.inl hP
        | succ i' =>
          exact Or.inr ⟨i', a', b', by simpa using h1, by simpa using h2, hP⟩



/-- Claim C5.  `get_days_with_least_availabilities` returns exactly the
days whose candidate count equals the global minimum over the given days
(membership characterization), in strictly ascending date order, each
candidate list sorted lexically; and `sort_names_by_least_on_call` permutes
its input into ascending duty-load order, preserving lexical order among
equally loaded names whenever the input list is lexically sorted. -/
theorem claim5_selector_and_fairness (av : APP) (days : List Int) (ev : Event)
    (names : List Name) (cal : Calendar)
    (hne : days ≠ []) (hnd : days.Nodup)
    (hsorted : names.Pairwise (fun a b => strLt b a = false)) :
    (∀ d ns, (d, ns) ∈ get_days_with_least_availabilities av days ev ↔
        (d ∈ days ∧
         (∀ d' ∈ days, (candidates av ev d).length ≤ (candidates av ev d').length) ∧
         ns = isort strLt (candidates av ev d))) ∧
    ((get_days_with_least_availabilities av days ev).map (fun p => p.1)).Pairwise
      (fun a b => a < b) ∧
    (∀ p ∈ get_days_with_least_availabilities av days ev,
        p.2.Pairwise (fun a b => strLt b a = false)) ∧
    (sort_names_by_least_on_call names cal).Perm names ∧
    (sort_names_by_least_on_call names cal).Pairwise (fun a b =>
        onCallCount cal a < onCallCount cal b ∨
        (onCallCount cal a = onCallCount cal b ∧ strLt b a = false)) := by
  have hperm : (isort (fun a b : Int => decide (a < b)) days).Perm days := isort_perm _ _
  have hsdnodup : (isort (fun a b : Int => decide (a < b)) days).Nodup :=
    hperm.nodup_iff.mpr hnd
  have hsdne : isort (fun a b : Int => decide (a < b)) days ≠ [] := by
    intro h
    rw [h] at hperm
    exact hne (List.Perm.eq_nil hperm.symm)
  have hlk : ∀ k, groupLookup k (buildGroups av ev
      (isort (fun a b : Int => decide (a < b)) days) []) =
      (isort (fun a b : Int => decide (a < b)) days).filter
        (fun d => (candidates av ev d).length = k) := by
    intro k
    rw [buildGroups_lookup]
    simp [groupLookup]
  have hkeys : ∀ k, k ∈ (buildGroups av ev
      (isort (fun a b : Int => decide (a < b)) days) []).map (fun p => p.1) ↔
      ∃ d ∈ isort (fun a b : Int => decide (a < b)) days,
        (candidates av ev d).length = k := by
    intro k
    rw [buildGroups_keys]
    simp [groupLookup]
  obtain ⟨d0, hd0⟩ := List.exists_mem_of_ne_nil _ hsdne
  have hkeysne : (buildGroups av ev (isort (fun a b : Int => decide (a < b)) days) []).map
      (fun p => p.1) ≠ [] := by
    intro h
    have := (hkeys ((candidates av ev d0).length)).mpr ⟨d0, hd0, rfl⟩
    rw [h] at this
    exact absurd this (List.not_mem_nil _)
  obtain ⟨least, hleast⟩ := listMinNat_isSome hkeysne
  obtain ⟨hlmem, hlmin⟩ := listMinNat_spec hleast
  have hres : get_days_with_least_availabilities av days ev =
      ((isort (fun a b : Int => decide (a < b)) days).filter
        (fun d => (candidates av ev d).length = least)).map
        (fun d => (d, isort strLt (candidates av ev d))) := by
    simp only [get_days_with_least_availabilities]
    rw [hleast]
    exact congrArg (List.map (fun d => (d, isort strLt (candidates av ev d)))) (hlk least)
  have hminchar : ∀ d, d ∈ days →
      (((candidates av ev d).length = least) ↔
        ∀ d' ∈ days, (candidates av ev d).length ≤ (candidates av ev d').length) := by
    intro d hd
    constructor
    · intro hcl d' hd'
      rw [hcl]
      exact hlmin _ ((hkeys _).mpr ⟨d', hperm.mem_iff.mpr hd', rfl⟩)
    · intro hall
      obtain ⟨dm, hdm, hcm⟩ := (hkeys least).mp hlmem
      have h1 : (candidates av ev d).length ≤ least :=
        hcm ▸ hall dm (hperm.mem_iff.mp hdm)
      have h2 : least ≤ (candidates av ev d).length :=
        hlmin _ ((hkeys _).mpr ⟨d, hperm.mem_iff.mpr hd, rfl⟩)
      omega
  refine ⟨?_, ?_, ?_, ?_, ?_⟩
  · intro d ns
    rw [hres]
    constructor
    · intro hmem
      obtain ⟨d', hd', heq⟩ := List.mem_map.mp hmem
      obtain ⟨hd'sd, hd'cnt⟩ := List.mem_filter.mp hd'
      obtain ⟨rfl, rfl⟩ := Prod.mk.injEq .. ▸ heq
      have hdd : d' ∈ days := hperm.mem_iff.mp hd'sd
      exact ⟨hdd, (hminchar d' hdd).mp (by simpa using hd'cnt), rfl⟩
    · rintro ⟨hd, hmin, rfl⟩
      refine List.mem_map.mpr ⟨d, List.mem_filter.mpr ⟨hperm.mem_iff.mpr hd, ?_⟩, rfl⟩
      simpa using (hminchar d hd).mpr hmin
  · rw [hres]
    have hmap : (((isort (fun a b : Int => decide (a < b)) days).filter
        (fun d => (candidates av ev d).length = least)).map
        (fun d => (d, isort strLt (candidates av ev d)))).map (fun p => p.1) =
        (isort (fun a b : Int => decide (a < b)) days).filter
          (fun d => (candidates av ev d).length = least) := by
      rw [List.map_map]
      simp [Function.comp_def]
    rw [hmap]
    have hle : (isort (fun a b : Int => decide (a < b)) days).Pairwise
        (fun a b : Int => a ≤ b) := by
      refine pairwise_isort _ _ ?_ ?_ ?_ days
      · intro x y z hxy hyz; omega
      · intro x y h; simp at h; omega
      · intro x y h; simp at h; omega
    have hlt : (isort (fun a b : Int => decide (a < b)) days).Pairwise
        (fun a b : Int => a < b) := by
      refine (hle.and hsdnodup).imp ?_
      intro a b ⟨h1, h2⟩
      omega
    exact hlt.filter _
  · intro p hp
    rw [hres] at hp
    obtain ⟨d', _, heq⟩ := List.mem_map.mp hp
    subst heq
    refine pairwise_isort strLt _ ?_ ?_ ?_ _
    · intro x y z hxy hyz; exact strLe_trans hxy hyz
    · intro x y h; exact strLt_asymm h
    · intro x y h; exact h
  · exact isort_perm _ _
  · exact pairwise_isort_key (onCallCount cal) _ names hsorted



theorem claim5_witness :
    (([1, 2, 3] : List Int) ≠ [] ∧ ([1, 2, 3] : List Int).Nodup ∧
      (["Alice", "Bob"] : List Name).Pairwise (fun a b => strLt b a = false)) ∧
    (sort_names_by_least_on_call ["Alice", "Bob"] (Calendar.new 1 3)).Perm
      ["Alice", "Bob"] ∧
    ((get_days_with_least_availabilities e2eApp [1, 2, 3] Event.FirstDaily).map
      (fun p => p.1)).Pairwise (fun a b => a < b) :=
  ⟨⟨by decide, by decide, by decide⟩,
    (claim5_selector_and_fairness e2eApp [1, 2, 3] Event.FirstDaily ["Alice", "Bob"]
      (Calendar.new 1 3) (by decide) (by decide) (by decide)).2.2.2.1,
    (claim5_selector_and_fairness e2eApp [1, 2, 3] Event.FirstDaily ["Alice", "Bob"]
      (Calendar.new 1 3) (by decide) (by decide) (by decide)).2.1⟩




namespace YearModel

theorem newDays_eq {y : Int} : ∀ {os : List Nat} {l : List (DateY × EventMap)},
    newDays y os = some l → l = os.map (fun o => (⟨y, o⟩, ({} : EventMap))) := by
  intro os
  induction os with
  | nil => intro l h; simp [newDays] at h; simp [h.symm]
  | cons o os ih =>
    intro l h
    simp only [newDays, from_ordinal_date] at h
    by_cases hv : 1 ≤ o ∧ o ≤ daysInYear y
    · rw [if_pos hv] at h
      simp only [Option.map_eq_some'] at h
      obtain ⟨rest, hrest, rfl⟩ := h
      simp [ih hrest]
    · rw [if_neg hv] at h
      simp at h

theorem newDays_some {y : Int} : ∀ {os : List Nat},
    (∀ o ∈ os, 1 ≤ o ∧ o ≤ daysInYear y) → ∃ l, newDays y os = some l := by
  intro os
  induction os with
  | nil => intro _; exact ⟨[], rfl⟩
  | cons o os ih =>
    intro h
    obtain ⟨l, hl⟩ := ih (fun o' ho' => h o' (List.mem_cons_of_mem _ ho'))
    refine ⟨(⟨y, o⟩, {}) :: l, ?_⟩
    simp only [newDays, from_ordinal_date, if_pos (h o (List.mem_cons_self _ _)), hl]
    rfl

theorem get_empty_days_spec (c : CalendarY) (hwf : c.WF) (ev : Event) :
    (∀ d : DateY, d ∈ c.get_empty_days ev ↔
      ∃ m, (d, m) ∈ c.days ∧ m.get ev = none) ∧
    (c.get_empty_days ev).Pairwise dateLt := by
  constructor
  · intro d
    unfold CalendarY.get_empty_days
    simp only [List.mem_map, List.mem_filter]
    constructor
    · rintro ⟨⟨d', m⟩, ⟨hmem, hev⟩, rfl⟩
      exact ⟨m, hmem, Option.isNone_iff_eq_none.mp (by simpa using hev)⟩
    · rintro ⟨m, hmem, hev⟩
      exact ⟨(d, m), ⟨hmem, by simp [hev]⟩, rfl⟩
  · unfold CalendarY.get_empty_days
    exact List.pairwise_map.mpr ((hwf.filter _).imp (fun h => h))

/-- Claim C10.  For valid dates `from <= to` in the same calendar year,
`Calendar::new` builds exactly one initially empty entry per day of
`[from, to]` (characterized membership, no duplicates); every constructed
key carries `from`'s year, so if the years differ the roster does not cover
the range (`to` itself gets no entry); and on every well-formed roster state
`get_empty_days` returns, in strictly ascending date order, exactly the
stored days whose entry lacks an assignee for the event. -/
theorem claim10_calendar_new (f t : DateY) (hf : f.valid) (ht : t.valid) :
    (f.year = t.year → dateLe f t →
      ∃ c, CalendarY.new f t = some c ∧
        (∀ p ∈ c.days, p.2 = ({} : EventMap)) ∧
        (∀ d : DateY, d ∈ c.days.map (fun p => p.1) ↔ (dateLe f d ∧ dateLe d t)) ∧
        (c.days.map (fun p => p.1)).Nodup) ∧
    (∀ c, CalendarY.new f t = some c →
      ∀ d ∈ c.days.map (fun p => p.1), d.year = f.year) ∧
    (f.year ≠ t.year → ∀ c, CalendarY.new f t = some c →
      t ∉ c.days.map (fun p => p.1)) ∧
    (∀ c : CalendarY, c.WF → ∀ ev : Event,
      (∀ d : DateY, d ∈ c.get_empty_days ev ↔
        ∃ m, (d, m) ∈ c.days ∧ m.get ev = none) ∧
      (c.get_empty_days ev).Pairwise dateLt) := by
  have hdays : ∀ c, CalendarY.new f t = some c →
      c.days = (List.range' f.ordinal (t.ordinal + 1 - f.ordinal)).map
        (fun o => (⟨f.year, o⟩, ({} : EventMap))) := by
    intro c hc
    unfold CalendarY.new at hc
    simp only [Option.map_eq_some'] at hc
    obtain ⟨ds, hds, rfl⟩ := hc
    exact newDays_eq hds
  refine ⟨?_, ?_, ?_, fun c hwf ev => get_empty_days_spec c hwf ev⟩
  · intro hyear hle
    have hord : f.ordinal ≤ t.ordinal := by
      rcases hle with hlt | rfl
      · rcases hlt with h | ⟨_, h⟩
        · omega
        · omega
      · exact le_refl _
    have hvalid : ∀ o ∈ List.range' f.ordinal (t.ordinal + 1 - f.ordinal),
        1 ≤ o ∧ o ≤ daysInYear f.year := by
      intro o ho
      rw [List.mem_range'_1] at ho
      obtain ⟨hf1, hf2⟩ := hf
      obtain ⟨ht1, ht2⟩ := ht
      rw [hyear]
      omega
    obtain ⟨l, hl⟩ := newDays_some hvalid
    refine ⟨⟨f, t, l⟩, ?_, ?_, ?_, ?_⟩
    · unfold CalendarY.new
      rw [hl]
      rfl
    · intro p hp
      rw [newDays_eq hl] at hp
      obtain ⟨o, _, rfl⟩ := List.mem_map.mp hp
      rfl
    · intro d
      show d ∈ (⟨f, t, l⟩ : CalendarY).days.map (fun p => p.1) ↔ _
      have : (⟨f, t, l⟩ : CalendarY).days = l := rfl
      rw [this, newDays_eq hl, List.map_map]
      simp only [List.mem_map, Function.comp_apply, List.mem_range'_1]
      constructor
      · rintro ⟨o, ⟨ho1, ho2⟩, rfl⟩
        obtain ⟨hf1, hf2⟩ := hf
        constructor
        · by_cases heq : f.ordinal = o
          · right
            show f = ⟨f.year, o⟩
            cases f
            simp_all
          · left
            right
            refine ⟨rfl, ?_⟩
            show f.ordinal < o
            omega
        · by_cases heq : o = t.ordinal
          · right
            show (⟨f.year, o⟩ : DateY) = t
            cases t
            simp_all
          · left
            right
            refine ⟨hyear, ?_⟩
            show o < t.ordinal
            omega
      · rintro ⟨hfd, hdt⟩
        refine ⟨d.ordinal, ⟨?_, ?_⟩, ?_⟩
        · rcases hfd with hlt | rfl
          · rcases hlt with h | ⟨he, h⟩
            · exfalso
              rcases hdt with hlt' | rfl
              · rcases hlt' with h' | ⟨he', h'⟩ <;> omega
              · omega
            · omega
          · omega
        · rcases hdt with hlt | rfl
          · rcases hlt with h | ⟨he, h⟩
            · exfalso
              rcases hfd with hlt' | rfl
              · rcases hlt' with h' | ⟨he', h'⟩ <;> omega
              · omega
            · omega
          · omega
        · have hdy : d.year = f.year := by
            rcases hfd with hlt | rfl
            · rcases hlt with h | ⟨he, _⟩
              · exfalso
                rcases hdt with hlt' | rfl
                · rcases hlt' with h' | ⟨he', _⟩ <;> omega
                · omega
              · omega
            · rfl
          cases d
          simp_all
    · rw [show (⟨f, t, l⟩ : CalendarY).days = l from rfl, newDays_eq hl, List.map_map]
      refine List.Nodup.map ?_ (List.nodup_range' ..)
      intro a b hab
      simpa using hab
  · intro c hc d hd
    rw [hdays c hc, List.map_map] at hd
    obtain ⟨o, _, rfl⟩ := List.mem_map.mp hd
    rfl
  · intro hyear c hc hmem
    rw [hdays c hc, List.map_map] at hmem
    obtain ⟨o, _, heq⟩ := List.mem_map.mp hmem
    have heq' : (⟨f.year, o⟩ : DateY) = t := by simpa using heq
    have hy : f.year = t.year := by
      have := congrArg (fun d : DateY => d.year) heq'
      simpa using this
    exact hyear hy

end YearModel


theorem claim10_witness :
    ((⟨2025, 1⟩ : YearModel.DateY).valid ∧ (⟨2025, 3⟩ : YearModel.DateY).valid ∧
      YearModel.dateLe ⟨2025, 1⟩ ⟨2025, 3⟩) ∧
    (∃ c, YearModel.CalendarY.new ⟨2025, 1⟩ ⟨2025, 3⟩ = some c ∧
        (∀ p ∈ c.days, p.2 = ({} : EventMap)) ∧
        (∀ d : YearModel.DateY, d ∈ c.days.map (fun p => p.1) ↔
          (YearModel.dateLe ⟨2025, 1⟩ d ∧ YearModel.dateLe d ⟨2025, 3⟩)) ∧
        (c.days.map (fun p => p.1)).Nodup) ∧
    ((⟨2024, 360⟩ : YearModel.DateY).valid ∧ (⟨2025, 2⟩ : YearModel.DateY).valid ∧
      (2024 : Int) ≠ 2025) ∧
    (∀ c, YearModel.CalendarY.new ⟨2024, 360⟩ ⟨2025, 2⟩ = some c →
      (⟨2025, 2⟩ : YearModel.DateY) ∉ c.days.map (fun p => p.1)) :=
  ⟨⟨by decide, by decide, by decide⟩,
   (YearModel.claim10_calendar_new ⟨2025, 1⟩ ⟨2025, 3⟩ (by decide) (by decide)).1 rfl
     (by decide),
   ⟨by decide, by decide, by decide⟩,
   (YearModel.claim10_calendar_new ⟨2024, 360⟩ ⟨2025, 2⟩ (by decide) (by decide)).2.2.1
     (by decide)⟩

/-! ## Claim C8: the pipeline is invariant under the hash iteration order
of the availability map. -/

theorem candidates_perm {av1 av2 : APP} (h : av1.Perm av2) (ev : Event) (d : Int) :
    (candidates av1 ev d).Perm (candidates av2 ev d) :=
  (h.filter _).map _

theorem isort_strLt_eq_of_perm {l1 l2 : List Name} (h : l1.Perm l2) :
    isort strLt l1 = isort strLt l2 := by
  exact @List.eq_of_perm_of_sorted Name (fun a b => strLt b a = false)
    ⟨fun a b hab hba => strLt_connex hba hab⟩ _ _
    ((isort_perm _ l1).trans (h.trans (isort_perm _ l2).symm))
    (pairwise_isort strLt (fun a b => strLt b a = false)
      (fun x y z hxy hyz => strLe_trans hxy hyz)
      (fun x y hx => strLt_asymm hx) (fun x y hx => hx) l1)
    (pairwise_isort strLt (fun a b => strLt b a = false)
      (fun x y z hxy hyz => strLe_trans hxy hyz)
      (fun x y hx => strLt_asymm hx) (fun x y hx => hx) l2)

theorem buildGroups_congr {av1 av2 : APP} (h : av1.Perm av2) (ev : Event) :
    ∀ (days : List Int) (acc : List (Nat × List Int)),
      buildGroups av1 ev days acc = buildGroups av2 ev days acc := by
  intro days
  induction days with
  | nil => intro acc; rfl
  | cons d ds ih =>
    intro acc
    rw [buildGroups, buildGroups, (candidates_perm h ev d).length_eq, ih]

theorem gdwla_perm_eq {av1 av2 : APP} (h : av1.Perm av2) (days : List Int) (ev : Event) :
    get_days_with_least_availabilities av1 days ev =
      get_days_with_least_availabilities av2 days ev := by
  simp only [get_days_with_least_availabilities]
  rw [buildGroups_congr h]
  cases hm : listMinNat ((buildGroups av2 ev
      (isort (fun a b : Int => decide (a < b)) days) []).map (fun g => g.1)) with
  | none => rfl
  | some least =>
    exact List.map_congr_left (fun d _ => by
      rw [isort_strLt_eq_of_perm (candidates_perm h ev d)])

theorem updatePerson_perm {av1 av2 : APP} (h : av1.Perm av2) (n : Name) (day : Int)
    (ev : Event) : (updatePerson av1 n day ev).Perm (updatePerson av2 n day ev) :=
  h.map _


theorem go_names_rel (ev : Event) (day : Int) (depth : Nat) (cal : Calendar)
    {next1 next2 : APP → Calendar → Nat → FindRes}
    (hnext : ∀ a1 a2 c d, a1.Perm a2 → FindResRel (next1 a1 c d) (next2 a2 c d))
    {av1 av2 : APP} (hav : av1.Perm av2) :
    ∀ (ns : List Name) (pd : Option Int),
      GoRel (go_names next1 ev day av1 cal depth ns pd)
        (go_names next2 ev day av2 cal depth ns pd) := by
  intro ns
  induction ns with
  | nil => intro pd; simp [go_names, GoRel]
  | cons n ns ih =>
    intro pd
    simp only [go_names]
    obtain ⟨hperm, heq⟩ := hnext (updatePerson av1 n day ev) (updatePerson av2 n day ev)
      (cal.set_for day ev n) (depth + 1) (updatePerson_perm hav n day ev)
    rcases h1 : next1 (updatePerson av1 n day ev) (cal.set_for day ev n) (depth + 1) with
      ⟨rav1, rcal1, rpd1, rdep1⟩
    rcases h2 : next2 (updatePerson av2 n day ev) (cal.set_for day ev n) (depth + 1) with
      ⟨rav2, rcal2, rpd2, rdep2⟩
    rw [h1, h2] at hperm heq
    simp only at hperm heq
    obtain ⟨hc, hp, hd⟩ : rcal1 = rcal2 ∧ rpd1 = rpd2 ∧ rdep1 = rdep2 := by
      have h := heq
      simp [Prod.ext_iff] at h
      exact ⟨h.1, h.2.1, h.2.2⟩
    subst hc; subst hp; subst hd
    by_cases he : (rcal1.get_empty_days ev).isEmpty = true
    · simp only [he, if_true]
      exact ⟨hperm, rfl⟩
    · simp only [he, if_false]
      exact ih rpd1

theorem go_days_rel (ev : Event) (depth : Nat) (cal : Calendar)
    {next1 next2 : APP → Calendar → Nat → FindRes}
    (hnext : ∀ a1 a2 c d, a1.Perm a2 → FindResRel (next1 a1 c d) (next2 a2 c d))
    {av1 av2 : APP} (hav : av1.Perm av2) :
    ∀ (dn : List (Int × List Name)) (pd : Option Int),
      FindResRel (go_days next1 ev av1 cal depth dn pd)
        (go_days next2 ev av2 cal depth dn pd) := by
  intro dn
  induction dn with
  | nil => intro pd; exact ⟨hav, rfl⟩
  | cons p rest ih =>
    intro pd
    obtain ⟨day, names⟩ := p
    simp only [go_days]
    by_cases hn : names.isEmpty = true
    · simp only [hn, if_true]
      exact ⟨hav, rfl⟩
    · simp only [hn, if_false]
      have hgo := go_names_rel ev day depth cal hnext hav
        (sort_names_by_least_on_call names cal) (some day)
      rcases hg1 : go_names next1 ev day av1 cal depth
          (sort_names_by_least_on_call names cal) (some day) with r1 | p1 <;>
        rcases hg2 : go_names next2 ev day av2 cal depth
            (sort_names_by_least_on_call names cal) (some day) with r2 | p2 <;>
        rw [hg1, hg2] at hgo
      · exact hgo
      · exact absurd hgo (by simp [GoRel])
      · exact absurd hgo (by simp [GoRel])
      · have hp : p1 = p2 := hgo
        rw [hp]
        exact ih p2

theorem find_next_aux_rel (ev : Event) :
    ∀ (fuel : Nat) {av1 av2 : APP} (cal : Calendar) (depth : Nat),
      av1.Perm av2 →
      FindResRel (find_next_aux fuel av1 cal ev depth)
        (find_next_aux fuel av2 cal ev depth) := by
  intro fuel
  induction fuel with
  | zero => intro av1 av2 cal depth hav; exact ⟨hav, rfl⟩
  | succ fuel ih =>
    intro av1 av2 cal depth hav
    simp only [find_next_aux]
    by_cases hr : (cal.get_empty_days ev).isEmpty = true
    · simp only [hr, if_true]
      exact ⟨hav, rfl⟩
    · simp only [hr, if_false]
      rw [gdwla_perm_eq hav]
      by_cases hcs : check_for_premature_stop
          (get_days_with_least_availabilities av2 (cal.get_empty_days ev) ev) ev = true
      · simp only [hcs, if_true]
        exact ⟨hav, rfl⟩
      · simp only [hcs, if_false]
        exact go_days_rel ev depth cal (fun a1 a2 c d h => ih c d h) hav _ none

theorem find_next_rel {av1 av2 : APP} (cal : Calendar) (ev : Event) (depth : Nat)
    (hav : av1.Perm av2) :
    FindResRel (find_next av1 cal ev depth) (find_next av2 cal ev depth) :=
  find_next_aux_rel ev _ cal depth hav


theorem mce_rel {av1 av2 : APP} (cal : Calendar) (ev : Event) (hav : av1.Perm av2) :
    MceRel (make_calendar_for_event cal av1 ev) (make_calendar_for_event cal av2 ev) := by
  unfold make_calendar_for_event
  obtain ⟨hperm, heq⟩ := find_next_rel cal ev 0 hav
  rcases h1 : find_next av1 cal ev 0 with ⟨rav1, rcal1, rpd1, rdep1⟩
  rcases h2 : find_next av2 cal ev 0 with ⟨rav2, rcal2, rpd2, rdep2⟩
  rw [h1, h2] at hperm heq
  simp only at hperm heq
  obtain ⟨hc, hp, _⟩ : rcal1 = rcal2 ∧ rpd1 = rpd2 ∧ rdep1 = rdep2 := by
    have h := heq
    simp [Prod.ext_iff] at h
    exact ⟨h.1, h.2.1, h.2.2⟩
  subst hc; subst hp
  by_cases he : (rcal1.get_empty_days ev).isEmpty = true
  · simp only [he, if_true]
    exact ⟨rfl, hperm, rfl⟩
  · simp only [he, if_false]
    exact ⟨rfl, hav, rfl⟩

theorem runPerm_rel : ∀ (perm : List Event) (cal : Calendar) {av1 av2 : APP},
    av1.Perm av2 → RunRel (runPerm cal av1 perm) (runPerm cal av2 perm) := by
  intro perm
  induction perm with
  | nil => intro cal av1 av2 hav; exact ⟨rfl, hav, rfl⟩
  | cons ev rest ih =>
    intro cal av1 av2 hav
    simp only [runPerm]
    obtain ⟨hc, hperm, hpd⟩ := mce_rel cal ev hav
    rcases h1 : make_calendar_for_event cal av1 ev with ⟨cal1, av1', pd1⟩
    rcases h2 : make_calendar_for_event cal av2 ev with ⟨cal2, av2', pd2⟩
    rw [h1, h2] at hc hperm hpd
    simp only at hc hperm hpd
    subst hc
    subst hpd
    by_cases he : (cal1.get_empty_days ev).isEmpty = true
    · simp only [he, if_true]
      exact ih cal1 hperm
    · simp only [he, if_false]
      exact ⟨rfl, hperm, rfl⟩

theorem tap_rel : ∀ (perms : List (List Event)) (cal0 : Calendar) {av01 av02 : APP}
    (pds : ProblematicDays), av01.Perm av02 →
    TapRel (tryPermsAux cal0 av01 perms pds) (tryPermsAux cal0 av02 perms pds) := by
  intro perms
  induction perms with
  | nil => intro cal0 av01 av02 pds hav; exact rfl
  | cons perm rest ih =>
    intro cal0 av01 av02 pds hav
    simp only [tryPermsAux]
    obtain ⟨hc, hperm, hpd⟩ := runPerm_rel perm cal0 hav
    rcases h1 : runPerm cal0 av01 perm with ⟨cal1, av1', rest1⟩
    rcases h2 : runPerm cal0 av02 perm with ⟨cal2, av2', rest2⟩
    rw [h1, h2] at hc hperm hpd
    simp only at hc hperm hpd
    subst hc
    subst hpd
    obtain ⟨pday, ok⟩ := rest1
    by_cases hok : ok = true
    · simp only [hok, if_true]
      exact ⟨rfl, hperm⟩
    · simp only [Bool.not_eq_true] at hok
      simp only [hok, Bool.false_eq_true, if_false]
      exact ih cal0 _ hav

theorem add_subco_perm {av1 av2 : APP} (h : av1.Perm av2) (f t : Int) (n : Name)
    (d : Int) (ev : Event) :
    (add_subco_for_this_day_and_event f t av1 n d ev).Perm
      (add_subco_for_this_day_and_event f t av2 n d ev) := by
  unfold add_subco_for_this_day_and_event
  have hmem : n ∈ av1.map (fun p => p.1) ↔ n ∈ av2.map (fun p => p.1) :=
    (h.map (fun p => p.1)).mem_iff
  by_cases hm : n ∈ av1.map (fun p => p.1)
  · rw [if_pos hm, if_pos (hmem.mp hm)]
    exact h.map _
  · rw [if_neg hm, if_neg (fun hc => hm (hmem.mpr hc))]
    exact h.append (List.Perm.refl _)

theorem mc_loop_rel : ∀ (count i : Nat) (cal0 : Calendar) {av1 av2 : APP}
    (pds : ProblematicDays), av1.Perm av2 →
    McRel (make_calendar_loop cal0 count i av1 pds)
      (make_calendar_loop cal0 count i av2 pds) := by
  intro count
  induction count with
  | zero => intro i cal0 av1 av2 pds hav; exact ⟨rfl, hav, rfl⟩
  | succ count ih =>
    intro i cal0 av1 av2 pds hav
    simp only [make_calendar_loop]
    have htap := tap_rel allEventPerms cal0 [] hav
    rcases h1 : try_all_permutations cal0 av1 with r1 | ⟨cal1, av1'⟩ <;>
      rcases h2 : try_all_permutations cal0 av2 with r2 | ⟨cal2, av2'⟩ <;>
      rw [show tryPermsAux cal0 av1 allEventPerms [] = try_all_permutations cal0 av1
          from rfl,
        show tryPermsAux cal0 av2 allEventPerms [] = try_all_permutations cal0 av2
          from rfl, h1, h2] at htap
    · have hr : r1 = r2 := htap
      subst hr
      show McRel
        (match pdMax r1 with
         | none => none
         | some (d, ev) =>
           make_calendar_loop cal0 count (i + 1)
             (add_subco_for_this_day_and_event cal0.fromDate cal0.toDate av1
               ("EXT-" ++ toString i) d ev) r1)
        (match pdMax r1 with
         | none => none
         | some (d, ev) =>
           make_calendar_loop cal0 count (i + 1)
             (add_subco_for_this_day_and_event cal0.fromDate cal0.toDate av2
               ("EXT-" ++ toString i) d ev) r1)
      cases hpm : pdMax r1 with
      | none => exact True.intro
      | some de =>
        obtain ⟨de1, de2⟩ := de
        exact ih (i + 1) cal0 r1
          (add_subco_perm hav cal0.fromDate cal0.toDate ("EXT-" ++ toString i) de1 de2)
    · exact absurd htap (by simp [TapRel])
    · exact absurd htap (by simp [TapRel])
    · obtain ⟨hc, hperm⟩ := htap
      subst hc
      exact ⟨rfl, hperm, rfl⟩


/-- Claim C8.  The pipeline is deterministic despite the unordered hash
maps: permuting the association list that embeds the
`HashMap<Name, Availabilities>` (i.e. running with any other hash iteration
order over the same key-value pairs) leaves the roster produced by
`make_calendar` — and in particular its panic/no-panic outcome — unchanged,
day by day and event by event. -/
theorem claim8_roster_deterministic (cal : Calendar) (av1 av2 : APP)
    (max_subcontractor : Nat) (h : av1.Perm av2) :
    (make_calendar cal av1 max_subcontractor).map (fun r => r.1) =
      (make_calendar cal av2 max_subcontractor).map (fun r => r.1) := by
  have hrel := mc_loop_rel (max_subcontractor + 1) 0 cal [] h
  unfold make_calendar
  cases h1 : make_calendar_loop cal (max_subcontractor + 1) 0 av1 [] with
  | none =>
    cases h2 : make_calendar_loop cal (max_subcontractor + 1) 0 av2 [] with
    | none => rfl
    | some r2 =>
      rw [h1, h2] at hrel
      exact absurd hrel (by simp [McRel])
  | some r1 =>
    cases h2 : make_calendar_loop cal (max_subcontractor + 1) 0 av2 [] with
    | none =>
      rw [h1, h2] at hrel
      exact absurd hrel (by simp [McRel])
    | some r2 =>
      rw [h1, h2] at hrel
      obtain ⟨hc, _, _⟩ := hrel
      show some r1.1 = some r2.1
      rw [hc]

theorem claim8_witness :
    e2eApp.Perm [("Bob", bobAv), ("Alice", aliceAv)] ∧
    (make_calendar (Calendar.new 1 3) e2eApp 0).map (fun r => r.1) =
      (make_calendar (Calendar.new 1 3) [("Bob", bobAv), ("Alice", aliceAv)] 0).map
        (fun r => r.1) :=
  ⟨List.Perm.swap ("Bob", bobAv) ("Alice", aliceAv) [],
   claim8_roster_deterministic (Calendar.new 1 3) e2eApp
     [("Bob", bobAv), ("Alice", aliceAv)] 0
     (List.Perm.swap ("Bob", bobAv) ("Alice", aliceAv) [])⟩


/-! ## Adequacy of the `find_next` fuel: on well-formed calendars each
recursive call fills one empty day, so any fuel above
`(cal.get_empty_days ev).length` gives the same result — the fuel
parameter of `find_next_aux` is an artifact of the embedding, not a
semantic difference from the Rust recursion. -/

theorem EventMap.get_insert_same (m : EventMap) (ev : Event) (n : Name) :
    (m.insert ev n).get ev = some n := by
  cases ev <;> rfl

theorem gdwla_mem_days (av : APP) (days : List Int) (ev : Event) :
    ∀ p ∈ get_days_with_least_availabilities av days ev, p.1 ∈ days := by
  intro p hp
  simp only [get_days_with_least_availabilities] at hp
  rcases hm : listMinNat ((buildGroups av ev
      (isort (fun a b : Int => decide (a < b)) days) []).map (fun g => g.1)) with _ | least
  · rw [hm] at hp
    simp at hp
  · rw [hm] at hp
    simp only [List.mem_map] at hp
    obtain ⟨d, hd, rfl⟩ := hp
    rw [buildGroups_lookup] at hd
    simp only [groupLookup, List.nil_append] at hd
    exact (isort_perm _ days).mem_iff.mp (List.mem_filter.mp hd).1

theorem mem_keys_insertAssign {days : List (Int × EventMap)} {day x : Int}
    {ev : Event} {n : Name} :
    x ∈ (insertAssign days day ev n).map (fun p => p.1) →
      x = day ∨ x ∈ days.map (fun p => p.1) := by
  induction days with
  | nil => simp [insertAssign]
  | cons p rest ih =>
    obtain ⟨d, m⟩ := p
    by_cases h1 : day = d
    · subst h1
      simp [insertAssign]
    · by_cases h2 : day < d
      · simp [insertAssign, h1, h2]
      · simp only [insertAssign, if_neg h1, if_neg h2, List.map_cons, List.mem_cons]
        rintro (rfl | hx)
        · simp
        · rcases ih hx with rfl | hx
          · exact Or.inl rfl
          · simp [hx]

theorem insertAssign_WF {days : List (Int × EventMap)}
    (hwf : days.Pairwise (fun a b => a.1 < b.1)) (day : Int) (ev : Event) (n : Name) :
    (insertAssign days day ev n).Pairwise (fun a b => a.1 < b.1) := by
  induction days with
  | nil => simp [insertAssign]
  | cons p rest ih =>
    obtain ⟨d, m⟩ := p
    rcases List.pairwise_cons.mp hwf with ⟨hd, hrest⟩
    by_cases h1 : day = d
    · subst h1
      simp only [insertAssign, if_pos rfl]
      exact List.pairwise_cons.mpr ⟨hd, hrest⟩
    · by_cases h2 : day < d
      · simp only [insertAssign, if_neg h1, if_pos h2]
        refine List.pairwise_cons.mpr ⟨?_, hwf⟩
        intro b hb
        rcases List.mem_cons.mp hb with rfl | hb
        · exact h2
        · exact h2.trans (hd b hb)
      · simp only [insertAssign, if_neg h1, if_neg h2]
        refine List.pairwise_cons.mpr ⟨?_, ih hrest⟩
        intro b hb
        have hbk := mem_keys_insertAssign (List.mem_map_of_mem (fun p => p.1) hb)
        rcases hbk with hbd | hbm
        · rw [hbd]
          omega
        · obtain ⟨b', hb', hfst⟩ := List.mem_map.mp hbm
          have := hd b' hb'
          omega

theorem set_for_WF {c : Calendar} (hwf : c.WF) (day : Int) (ev : Event) (n : Name) :
    (c.set_for day ev n).WF :=
  insertAssign_WF hwf day ev n

theorem insertAssign_cons_eq {d day : Int} {m : EventMap} {rest : List (Int × EventMap)}
    {ev : Event} {n : Name} (h : day = d) :
    insertAssign ((d, m) :: rest) day ev n = (d, m.insert ev n) :: rest := by
  simp [insertAssign, h]

theorem insertAssign_cons_lt {d day : Int} {m : EventMap} {rest : List (Int × EventMap)}
    {ev : Event} {n : Name} (h1 : ¬ day = d) (h2 : day < d) :
    insertAssign ((d, m) :: rest) day ev n =
      (day, EventMap.insert {} ev n) :: (d, m) :: rest := by
  simp [insertAssign, h1, h2]

theorem insertAssign_cons_gt {d day : Int} {m : EventMap} {rest : List (Int × EventMap)}
    {ev : Event} {n : Name} (h1 : ¬ day = d) (h2 : ¬ day < d) :
    insertAssign ((d, m) :: rest) day ev n = (d, m) :: insertAssign rest day ev n := by
  simp [insertAssign, h1, h2]

theorem eds_insertAssign {days : List (Int × EventMap)}
    (hwf : days.Pairwise (fun a b => a.1 < b.1)) (day : Int) (ev : Event) (n : Name) :
    ((insertAssign days day ev n).filter
        (fun p => (p.2.get ev).isNone)).map (fun p => p.1) =
      ((days.filter (fun p => (p.2.get ev).isNone)).map (fun p => p.1)).erase day := by
  induction days with
  | nil => simp [insertAssign, EventMap.get_insert_same]
  | cons p rest ih =>
    obtain ⟨d, m⟩ := p
    rcases List.pairwise_cons.mp hwf with ⟨hd, hrest⟩
    have hdnotin : d ∉ ((rest.filter (fun p => (p.2.get ev).isNone)).map
        (fun p => p.1)) := by
      intro hmem
      obtain ⟨q, hq, hfst⟩ := List.mem_map.mp hmem
      have := hd q (List.mem_filter.mp hq).1
      omega
    by_cases h1 : day = d
    · rw [insertAssign_cons_eq h1]
      by_cases hm : ((m.get ev).isNone : Bool) = true
      · rw [List.filter_cons, List.filter_cons]
        simp only [EventMap.get_insert_same, Option.isNone_some, hm, if_true,
          Bool.false_eq_true, if_false, List.map_cons]
        rw [h1, List.erase_cons_head]
      · rw [List.filter_cons, List.filter_cons]
        simp only [EventMap.get_insert_same, Option.isNone_some, hm, Bool.false_eq_true,
          if_false]
        rw [h1]
        exact (List.erase_of_not_mem hdnotin).symm
    · by_cases h2 : day < d
      · have hdaynotin : day ∉ (((d, m) :: rest).filter
            (fun p => (p.2.get ev).isNone)).map (fun p => p.1) := by
          intro hmem
          obtain ⟨q, hq, hfst⟩ := List.mem_map.mp hmem
          rcases List.mem_cons.mp (List.mem_filter.mp hq).1 with rfl | hq'
          · omega
          · have := hd q hq'
            omega
        rw [insertAssign_cons_lt h1 h2, List.filter_cons]
        simp only [EventMap.get_insert_same, Option.isNone_some, Bool.false_eq_true,
          if_false]
        exact (List.erase_of_not_mem hdaynotin).symm
      · rw [insertAssign_cons_gt h1 h2, List.filter_cons, List.filter_cons]
        by_cases hm : ((m.get ev).isNone : Bool) = true
        · simp only [hm, if_true, List.map_cons]
          rw [List.erase_cons_tail (by simp only [beq_iff_eq]; omega)]
          rw [ih hrest]
        · simp only [hm, Bool.false_eq_true, if_false]
          exact ih hrest

theorem set_for_empty_length {c : Calendar} (hwf : c.WF) {day : Int} {ev : Event}
    (hday : day ∈ c.get_empty_days ev) (n : Name) :
    ((c.set_for day ev n).get_empty_days ev).length + 1 =
      (c.get_empty_days ev).length := by
  have h := eds_insertAssign hwf day ev n
  have hlen : ((c.set_for day ev n).get_empty_days ev).length =
      ((c.get_empty_days ev).erase day).length := by
    unfold Calendar.get_empty_days at *
    rw [show (c.set_for day ev n).days = insertAssign c.days day ev n from rfl, h]
  rw [hlen, List.length_erase_of_mem hday]
  have : 0 < (c.get_empty_days ev).length := List.length_pos.mpr
    (fun hnil => by rw [hnil] at hday; exact List.not_mem_nil _ hday)
  omega

theorem go_names_congr {next1 next2 : APP → Calendar → Nat → FindRes} (ev : Event)
    (day : Int) (av : APP) (cal : Calendar) (depth : Nat)
    (hag : ∀ a n d, next1 a (cal.set_for day ev n) d = next2 a (cal.set_for day ev n) d) :
    ∀ (ns : List Name) (pd : Option Int),
      go_names next1 ev day av cal depth ns pd =
        go_names next2 ev day av cal depth ns pd := by
  intro ns
  induction ns with
  | nil => intro pd; rfl
  | cons n ns ih =>
    intro pd
    simp only [go_names]
    rw [hag]
    rcases h2 : next2 (updatePerson av n day ev) (cal.set_for day ev n) (depth + 1) with
      ⟨rav, rcal, rpd, rdep⟩
    by_cases he : (rcal.get_empty_days ev).isEmpty = true
    · simp only [he, if_true]
    · simp only [he, if_false]
      exact ih rpd

theorem go_days_congr {next1 next2 : APP → Calendar → Nat → FindRes} (ev : Event)
    (av : APP) (cal : Calendar) (depth : Nat) :
    ∀ (dn : List (Int × List Name)) (pd : Option Int),
      (∀ p ∈ dn, ∀ a n d,
        next1 a (cal.set_for p.1 ev n) d = next2 a (cal.set_for p.1 ev n) d) →
      go_days next1 ev av cal depth dn pd = go_days next2 ev av cal depth dn pd := by
  intro dn
  induction dn with
  | nil => intro pd _; rfl
  | cons p rest ih =>
    intro pd hag
    obtain ⟨day, names⟩ := p
    simp only [go_days]
    by_cases hn : names.isEmpty = true
    · simp only [hn, if_true]
    · simp only [hn, if_false]
      rw [go_names_congr ev day av cal depth
        (fun a n d => hag (day, names) (List.mem_cons_self _ _) a n d)]
      rcases hg : go_names next2 ev day av cal depth
          (sort_names_by_least_on_call names cal) (some day) with r | p'
      · rfl
      · exact ih p' (fun q hq => hag q (List.mem_cons_of_mem _ hq))

theorem find_next_aux_stable :
    ∀ E : Nat, ∀ cal : Calendar, cal.WF → ∀ ev : Event,
      (cal.get_empty_days ev).length = E →
      ∀ f1 f2 : Nat, E < f1 → E < f2 → ∀ (av : APP) (depth : Nat),
        find_next_aux f1 av cal ev depth = find_next_aux f2 av cal ev depth := by
  intro E
  induction E using Nat.strong_induction_on with
  | _ E ih =>
    intro cal hwf ev hE f1 f2 h1 h2 av depth
    obtain ⟨f1', rfl⟩ : ∃ k, f1 = k + 1 := ⟨f1 - 1, by omega⟩
    obtain ⟨f2', rfl⟩ : ∃ k, f2 = k + 1 := ⟨f2 - 1, by omega⟩
    simp only [find_next_aux]
    by_cases hr : (cal.get_empty_days ev).isEmpty = true
    · simp only [hr, if_true]
    · simp only [hr, if_false]
      by_cases hcs : check_for_premature_stop
          (get_days_with_least_availabilities av (cal.get_empty_days ev) ev) ev = true
      · simp only [hcs, if_true]
      · simp only [hcs, if_false]
        refine go_days_congr ev av cal depth _ none ?_
        intro p hp a n d
        have hday : p.1 ∈ cal.get_empty_days ev :=
          gdwla_mem_days av (cal.get_empty_days ev) ev p hp
        have hwf' : (cal.set_for p.1 ev n).WF := set_for_WF hwf p.1 ev n
        have hlen := set_for_empty_length hwf hday n
        have hpos : 0 < E := by
          rw [← hE]
          refine List.length_pos.mpr (fun hnil => ?_)
          rw [hnil] at hr
          exact hr rfl
        exact ih ((cal.set_for p.1 ev n).get_empty_days ev).length (by omega)
          (cal.set_for p.1 ev n) hwf' ev rfl f1' f2' (by omega) (by omega) a d

theorem find_next_aux_adequate {cal : Calendar} (hwf : cal.WF) (ev : Event)
    {fuel : Nat} (h : (cal.get_empty_days ev).length < fuel) (av : APP) (depth : Nat) :
    find_next_aux fuel av cal ev depth = find_next av cal ev depth :=
  find_next_aux_stable _ cal hwf ev rfl fuel _ h (Nat.lt_succ_self _) av depth

end Aubepine
